import Mathlib

/-!
Verification development for the basm assembler: a shallow embedding of
the parser (src/basm/src/parser.rs, built on winnow 0.3 combinators) and
of the code generator (src/basm/src/main.rs), together with an ideal-tape
semantics for the emitted brainfuck fragments.
-/

namespace Basm

/-! ## Parser embedding (src/basm/src/parser.rs) -/

/-- Error mode of the winnow parser: a recoverable backtrack or a hard cut. -/
inductive PErr : Type
  | backtrack
  | cut
deriving DecidableEq

/-- A parser over a character list, returning the rest of the input and a value. -/
def Parser (α : Type) : Type := List Char → Except PErr (List Char × α)

/-- Whitespace recognized by winnow `multispace0`: space, tab, carriage return, newline. -/
def isWs (c : Char) : Bool := c == ' ' || c == '\t' || c == '\r' || c == '\n'

/-- ASCII alphabetic characters, as recognized by winnow `alpha1`. -/
def isAl (c : Char) : Bool := (65 ≤ c.toNat && c.toNat ≤ 90) || (97 ≤ c.toNat && c.toNat ≤ 122)

/-- ASCII digits. -/
def isDig (c : Char) : Bool := 48 ≤ c.toNat && c.toNat ≤ 57

/-- winnow `multispace0`: consume any (possibly empty) run of whitespace. -/
def multispace0 : Parser (List Char) := fun i =>
  .ok (i.dropWhile isWs, i.takeWhile isWs)

/-- winnow `alpha1`: consume a nonempty run of ASCII letters. -/
def alpha1 : Parser (List Char) := fun i =>
  match i.takeWhile isAl with
  | [] => .error .backtrack
  | w => .ok (i.dropWhile isAl, w)

/-- winnow `any`: consume one character. -/
def anyChar : Parser Char := fun i =>
  match i with
  | [] => .error .backtrack
  | c :: r => .ok (r, c)

/-- Literal one-character tag parser. -/
def tagChar (c : Char) : Parser Char := fun i =>
  match i with
  | c' :: r => if c' = c then .ok (r, c) else .error .backtrack
  | [] => .error .backtrack

/-- Literal string tag parser. -/
def tagStr : List Char → Parser Unit := fun t i =>
  match t, i with
  | [], i => .ok (i, ())
  | _ :: _, [] => .error .backtrack
  | c :: t', c' :: i' => if c' = c then tagStr t' i' else .error .backtrack

/-- Map over a parser result. -/
def pmap (p : Parser α) (f : α → β) : Parser β := fun i =>
  match p i with
  | .error e => .error e
  | .ok (r, a) => .ok (r, f a)

/-- winnow `alt` over two parsers: try the second only on a backtrack error. -/
def alt2 (p q : Parser α) : Parser α := fun i =>
  match p i with
  | .error .backtrack => q i
  | r => r

/-- winnow `delimited`: run three parsers, keep the middle value. -/
def delim (a : Parser α) (b : Parser β) (c : Parser γ) : Parser β := fun i =>
  match a i with
  | .error e => .error e
  | .ok (i1, _) =>
    match b i1 with
    | .error e => .error e
    | .ok (i2, x) =>
      match c i2 with
      | .error e => .error e
      | .ok (i3, _) => .ok (i3, x)

/-- Numeric value of a digit run. -/
def digitsVal (ds : List Char) : Nat := ds.foldl (fun a c => a * 10 + (c.toNat - 48)) 0

/-- winnow `dec_uint` at type u32: a digit run whose value fits in 32 bits. -/
def dec_uint : Parser Nat := fun i =>
  match i.takeWhile isDig with
  | [] => .error .backtrack
  | ds => if digitsVal ds < 4294967296 then .ok (i.dropWhile isDig, digitsVal ds)
          else .error .backtrack

/-- winnow `dec_int` at type i32: optional sign, then digits, value in i32 range. -/
def dec_int : Parser Int := fun i =>
  match i with
  | '-' :: r =>
    match r.takeWhile isDig with
    | [] => .error .backtrack
    | ds => if -2147483648 ≤ -(digitsVal ds : Int) then .ok (r.dropWhile isDig, -(digitsVal ds : Int))
            else .error .backtrack
  | '+' :: r =>
    match r.takeWhile isDig with
    | [] => .error .backtrack
    | ds => if (digitsVal ds : Int) ≤ 2147483647 then .ok (r.dropWhile isDig, (digitsVal ds : Int))
            else .error .backtrack
  | _ =>
    match i.takeWhile isDig with
    | [] => .error .backtrack
    | ds => if (digitsVal ds : Int) ≤ 2147483647 then .ok (i.dropWhile isDig, (digitsVal ds : Int))
            else .error .backtrack

/-- winnow `take_until0` for the pattern newline: consume everything strictly
before the first newline of the input; fail (backtrack) when there is none. -/
def takeUntilNl : Parser (List Char) := fun i =>
  if '\n' ∈ i then .ok (i.dropWhile (fun c => c != '\n'), i.takeWhile (fun c => c != '\n'))
  else .error .backtrack

/-- The instruction model of parser.rs. -/
inductive Instruction : Type
  | input
  | print
  | write (n : Nat)
  | move (n : Int)
  | moveValue (n : Int)
  | copyValue (to' tmp : Int)
deriving DecidableEq

/-- parse_escape: the quote-backslash escape literal; only the escape character
n is accepted (newline, code 10); any other escape character is a hard cut. -/
def parse_escape : Parser Nat := fun i =>
  match tagStr ('\'' :: '\\' :: []) i with
  | .error e => .error e
  | .ok (i1, _) =>
    match anyChar i1 with
    | .error e => .error e
    | .ok (i2, c) =>
      match tagChar '\'' i2 with
      | .error e => .error e
      | .ok (i3, _) => if c = 'n' then .ok (i3, 10) else .error .cut

/-- parse_u32_param: quoted character literal, decimal unsigned, or escape literal. -/
def parse_u32_param : Parser Nat :=
  alt2 (pmap (delim (tagChar '\'') anyChar (tagChar '\'')) Char.toNat) (alt2 dec_uint parse_escape)

/-- parse_i32_param. -/
def parse_i32_param : Parser Int := dec_int

/-- parse_word: whitespace-delimited maximal letter run, or the comment marker. -/
def parse_word : Parser (List Char) :=
  delim multispace0 (alt2 alpha1 (pmap (tagChar ';') (fun _ => ';' :: []))) multispace0

/-- parse_instruction: recognize one word and dispatch on it; the comment marker
consumes to just before the next newline and yields no instruction; an
unrecognized word is a backtrack failure (winnow `fail`). -/
def parse_instruction : Parser (Option Instruction) := fun i =>
  match parse_word i with
  | .error e => .error e
  | .ok (i1, w) =>
    if w = ("INPUT".toList) then .ok (i1, some .input)
    else if w = ("PRINT".toList) then .ok (i1, some .print)
    else if w = ("WRITE".toList) then
      match parse_u32_param i1 with
      | .error e => .error e
      | .ok (i2, n) => .ok (i2, some (.write n))
    else if w = ("MOVE".toList) then
      match parse_i32_param i1 with
      | .error e => .error e
      | .ok (i2, n) => .ok (i2, some (.move n))
    else if w = ("MOVEVAL".toList) then
      match parse_i32_param i1 with
      | .error e => .error e
      | .ok (i2, n) => .ok (i2, some (.moveValue n))
    else if w = ("COPY".toList) then
      match parse_i32_param i1 with
      | .error e => .error e
      | .ok (i2, a) =>
        match delim multispace0 (tagChar ',') multispace0 i2 with
        | .error e => .error e
        | .ok (i3, _) =>
          match parse_i32_param i3 with
          | .error e => .error e
          | .ok (i4, b) => .ok (i4, some (.copyValue a b))
    else if w = (';' :: []) then
      match takeUntilNl i1 with
      | .error e => .error e
      | .ok (i2, _) => .ok (i2, none)
    else .error .backtrack

/-- The accumulator loop of winnow `fold_many0`: stop (successfully) on a
backtrack failure, propagate a cut, and treat a non-consuming success as a
hard error (the winnow infinite-loop guard). Fuel exceeds the input length,
and consumption strictly shrinks the input, so the fuel never runs out. -/
def foldGo : Nat → List Instruction → List Char → Except PErr (List Char × List Instruction)
  | 0, _, _ => .error .cut
  | fuel + 1, acc, i =>
    match parse_instruction i with
    | .error .backtrack => .ok (i, acc)
    | .error .cut => .error .cut
    | .ok (rest, item) =>
      if rest.length < i.length then
        foldGo fuel (match item with | some x => acc ++ x :: [] | none => acc) rest
      else .error .cut

/-- parse (parser.rs): fold instructions from the input, then keep only the
accumulated list, discarding whatever input was left unconsumed. -/
def parse (s : List Char) : Except PErr (List Instruction) :=
  match foldGo (s.length + 1) [] s with
  | .error e => .error e
  | .ok (_, acc) => .ok acc

/-- Forget the unconsumed rest of a parse result, keeping only the value. -/
def stripRest : Except PErr (List Char × α) → Except PErr α
  | .error e => .error e
  | .ok (_, a) => .ok a

/-! ## Code generator embedding (src/basm/src/main.rs) -/

/-- Instruction to clear a register. -/
def CLEAR_REG : List Char := '[' :: '-' :: ']' :: []

/-- Two's-complement wrap into the i32 range (Rust `wrapping_sub`, `wrapping_neg`). -/
def wrap32 (x : Int) : Int := (x + 2147483648) % 4294967296 - 2147483648

/-- Release-mode (wrapping) absolute value of an i32: the minimum stays itself. -/
def i32abs (n : Int) : Int := if n = -2147483648 then n else (n.natAbs : Int)

/-- write_multiple: write the given bytes `n` times; an i32 loop bound, so a
nonpositive count writes nothing. -/
def write_multiple (bytes : List Char) (n : Int) : List Char :=
  (List.replicate n.toNat bytes).flatten

/-- write_move: shift right for a positive distance, left for a negative one. -/
def write_move (moven : Int) : List Char :=
  if moven = 0 then []
  else if 0 < moven then write_multiple ('>' :: []) moven
  else write_multiple ('<' :: []) (i32abs moven)

/-- move_sign_of: the movement sign for a distance. -/
def move_sign_of (n : Int) : List Char := if 0 ≤ n then '>' :: [] else '<' :: []

/-- write_move_val_loop: the drain-and-carry loop moving a value over `dist` cells. -/
def write_move_val_loop (dist : Int) (sign_fwd sign_back : List Char) : List Char :=
  '[' :: '-' :: [] ++ write_multiple sign_fwd dist ++ '+' :: []
    ++ write_multiple sign_back dist ++ ']' :: []

/-- write_instruction: compile a single instruction to brainfuck. -/
def write_instruction : Instruction → List Char
  | .print => '.' :: []
  | .input => ',' :: []
  | .write n => CLEAR_REG ++ List.replicate n '+'
  | .move n => write_multiple (if n < 0 then '<' :: [] else '>' :: []) (i32abs n)
  | .moveValue n =>
    write_multiple (if 0 < n then '>' :: [] else '<' :: []) (i32abs n) ++ CLEAR_REG
      ++ write_multiple (if 0 < n then '<' :: [] else '>' :: []) (i32abs n)
      ++ write_move_val_loop (i32abs n) (if 0 < n then '>' :: [] else '<' :: [])
          (if 0 < n then '<' :: [] else '>' :: [])
  | .copyValue to' tmp =>
    write_move to' ++ CLEAR_REG
      ++ write_move (wrap32 (tmp - to')) ++ CLEAR_REG
      ++ write_move (wrap32 (-tmp))
      ++ '[' :: '-' :: []
      ++ write_move to' ++ '+' :: []
      ++ write_move (wrap32 (tmp - to')) ++ '+' :: []
      ++ write_move (wrap32 (-tmp))
      ++ ']' :: []
      ++ write_move tmp
      ++ write_move_val_loop (i32abs tmp) (move_sign_of (wrap32 (-tmp))) (move_sign_of tmp)
      ++ write_move (wrap32 (-tmp))

/-- compile: each instruction's fragment followed by a newline, in order. -/
def compile (instructions : List Instruction) : List Char :=
  (instructions.map (fun i => write_instruction i ++ '\n' :: [])).flatten

/-! ## Code generator threaded through an abstract, possibly failing writer.

Rust `write_instruction` takes `writer: &mut W` and returns `io::Result<()>`;
every failure comes from a `write_all` call. The abstract writer is a state
type `σ` with a write function returning `none` on an I/O error. -/

section WriterGeneric

variable {σ : Type}

/-- Iterated write_all of the same bytes (the loop inside write_multiple). -/
def write_multiple_w (wa : σ → List Char → Option σ) (bytes : List Char) : Nat → σ → Option σ
  | 0, st => some st
  | k + 1, st =>
    match wa st bytes with
    | none => none
    | some st' => write_multiple_w wa bytes k st'

/-- write_multiple against an abstract writer. -/
def write_multipleG (wa : σ → List Char → Option σ) (st : σ) (bytes : List Char) (n : Int) :
    Option σ :=
  write_multiple_w wa bytes n.toNat st

/-- write_move against an abstract writer. -/
def write_moveG (wa : σ → List Char → Option σ) (st : σ) (moven : Int) : Option σ :=
  if moven = 0 then some st
  else if 0 < moven then write_multipleG wa st ('>' :: []) moven
  else write_multipleG wa st ('<' :: []) (i32abs moven)

/-- write_move_val_loop against an abstract writer. -/
def write_move_val_loopG (wa : σ → List Char → Option σ) (st : σ) (dist : Int)
    (sign_fwd sign_back : List Char) : Option σ :=
  match wa st ('[' :: '-' :: []) with
  | none => none
  | some s1 =>
    match write_multipleG wa s1 sign_fwd dist with
    | none => none
    | some s2 =>
      match wa s2 ('+' :: []) with
      | none => none
      | some s3 =>
        match write_multipleG wa s3 sign_back dist with
        | none => none
        | some s4 => wa s4 (']' :: [])

/-- write_instruction against an abstract writer: `none` exactly when some
write_all call failed. -/
def write_instructionG (wa : σ → List Char → Option σ) (st : σ) : Instruction → Option σ
  | .print => wa st ('.' :: [])
  | .input => wa st (',' :: [])
  | .write n =>
    match wa st CLEAR_REG with
    | none => none
    | some s1 => write_multiple_w wa ('+' :: []) n s1
  | .move n => write_multipleG wa st (if n < 0 then '<' :: [] else '>' :: []) (i32abs n)
  | .moveValue n =>
    match write_multipleG wa st (if 0 < n then '>' :: [] else '<' :: []) (i32abs n) with
    | none => none
    | some s1 =>
      match wa s1 CLEAR_REG with
      | none => none
      | some s2 =>
        match write_multipleG wa s2 (if 0 < n then '<' :: [] else '>' :: []) (i32abs n) with
        | none => none
        | some s3 =>
          write_move_val_loopG wa s3 (i32abs n) (if 0 < n then '>' :: [] else '<' :: [])
            (if 0 < n then '<' :: [] else '>' :: [])
  | .copyValue to' tmp =>
    match write_moveG wa st to' with
    | none => none
    | some s1 =>
      match wa s1 CLEAR_REG with
      | none => none
      | some s2 =>
        match write_moveG wa s2 (wrap32 (tmp - to')) with
        | none => none
        | some s3 =>
          match wa s3 CLEAR_REG with
          | none => none
          | some s4 =>
            match write_moveG wa s4 (wrap32 (-tmp)) with
            | none => none
            | some s5 =>
              match wa s5 ('[' :: '-' :: []) with
              | none => none
              | some s6 =>
                match write_moveG wa s6 to' with
                | none => none
                | some s7 =>
                  match wa s7 ('+' :: []) with
                  | none => none
                  | some s8 =>
                    match write_moveG wa s8 (wrap32 (tmp - to')) with
                    | none => none
                    | some s9 =>
                      match wa s9 ('+' :: []) with
                      | none => none
                      | some s10 =>
                        match write_moveG wa s10 (wrap32 (-tmp)) with
                        | none => none
                        | some s11 =>
                          match wa s11 (']' :: []) with
                          | none => none
                          | some s12 =>
                            match write_moveG wa s12 tmp with
                            | none => none
                            | some s13 =>
                              match write_move_val_loopG wa s13 (i32abs tmp)
                                  (move_sign_of (wrap32 (-tmp))) (move_sign_of tmp) with
                              | none => none
                              | some s14 => write_moveG wa s14 (wrap32 (-tmp))

/-- The infallible list writer: write_all appends and never fails. -/
def listWriter : List Char → List Char → Option (List Char) := fun s cs => some (s ++ cs)

end WriterGeneric

/-! ## Ideal-tape semantics of the emitted fragments.

Modelled from the spec: the tape-language target semantics of section 6 on an
ideal tape (two-way unbounded, cells unbounded counters), which the claims
stipulate; the in-repo brainfuck interpreter is the excluded execution-engine
collaborator and is not the semantics the claims quantify over. -/

/-- Tape-language commands relevant to the emitted fragments. -/
inductive BF : Type
  | right
  | left
  | inc
  | dec
  | loop (body : List BF)

/-- Machine state: the tape and the data pointer. -/
structure BfState where
  tape : Int → Nat
  ptr : Int

/-- Pointwise tape update. -/
def updTape (t : Int → Nat) (i : Int) (v : Nat) : Int → Nat := fun j => if j = i then v else t j

/-- Bracket parser from characters to commands, with a stack of open loops. -/
def pb : List Char → List BF → List (List BF) → Option (List BF)
  | [], acc, [] => some acc.reverse
  | [], _, _ :: _ => none
  | '[' :: cs, acc, stk => pb cs [] (acc :: stk)
  | ']' :: cs, acc, stk =>
    match stk with
    | [] => none
    | top :: stk' => pb cs (.loop acc.reverse :: top) stk'
  | '>' :: cs, acc, stk => pb cs (.right :: acc) stk
  | '<' :: cs, acc, stk => pb cs (.left :: acc) stk
  | '+' :: cs, acc, stk => pb cs (.inc :: acc) stk
  | '-' :: cs, acc, stk => pb cs (.dec :: acc) stk
  | _ :: cs, acc, stk => pb cs acc stk

/-- Parse a fragment into commands; `none` on unbalanced brackets. -/
def parseBF (cs : List Char) : Option (List BF) := pb cs [] []

/-- Executor at loop-entry budget zero: loops may only be skipped. -/
def run0 : List BF → BfState → Option BfState
  | [], s => some s
  | .right :: r, s => run0 r ⟨s.tape, s.ptr + 1⟩
  | .left :: r, s => run0 r ⟨s.tape, s.ptr - 1⟩
  | .inc :: r, s => run0 r ⟨updTape s.tape s.ptr (s.tape s.ptr + 1), s.ptr⟩
  | .dec :: r, s => run0 r ⟨updTape s.tape s.ptr (s.tape s.ptr - 1), s.ptr⟩
  | .loop _ :: r, s => if s.tape s.ptr = 0 then run0 r s else none

/-- One more level of loop-entry budget on top of a previous executor. -/
def runS (prev : List BF → BfState → Option BfState) : List BF → BfState → Option BfState
  | [], s => some s
  | .right :: r, s => runS prev r ⟨s.tape, s.ptr + 1⟩
  | .left :: r, s => runS prev r ⟨s.tape, s.ptr - 1⟩
  | .inc :: r, s => runS prev r ⟨updTape s.tape s.ptr (s.tape s.ptr + 1), s.ptr⟩
  | .dec :: r, s => runS prev r ⟨updTape s.tape s.ptr (s.tape s.ptr - 1), s.ptr⟩
  | .loop b :: r, s =>
    if s.tape s.ptr = 0 then runS prev r s
    else
      match prev b s with
      | none => none
      | some s' => prev (.loop b :: r) s'

/-- Fuelled executor: the fuel bounds loop unrollings; all other steps are free. -/
def run : Nat → List BF → BfState → Option BfState
  | 0 => run0
  | f + 1 => runS (run f)

/-- A program runs from one state to another when some fuel suffices. -/
def Runs (prog : List BF) (s s' : BfState) : Prop := ∃ f, run f prog s = some s'

/-- Bracket-depth counter; `none` when a closing bracket has no open partner. -/
def brCount : List Char → Nat → Option Nat
  | [], d => some d
  | c :: cs, d =>
    if c = '[' then brCount cs (d + 1)
    else if c = ']' then
      match d with
      | 0 => none
      | d' + 1 => brCount cs d'
    else brCount cs d

/-- A fragment is balanced when every bracket is matched and well nested. -/
def balanced (cs : List Char) : Prop := brCount cs 0 = some 0

/-- Commands shifting the pointer by a signed distance. -/
def astShift (d : Int) : List BF :=
  if 0 ≤ d then List.replicate d.toNat .right else List.replicate d.natAbs .left

/-- Characters shifting the pointer by a signed distance. -/
def shiftChars (d : Int) : List Char :=
  if 0 ≤ d then List.replicate d.toNat '>' else List.replicate d.natAbs '<'

/-- Commands of the Write fragment: clear, then increments. -/
def writeAST (n : Nat) : List BF := .loop (.dec :: []) :: List.replicate n .inc

/-- Commands of the MoveValue fragment: go to the target, clear it, come back,
then drain the current cell into the target. -/
def mvAST (n : Int) : List BF :=
  astShift n ++ (.loop (.dec :: []) ::
    (astShift (-n) ++ (.loop (.dec :: (astShift n ++ (.inc :: astShift (-n)))) :: [])))

/-- Commands of the CopyValue fragment with offsets `a` (destination) and `b`
(scratch): clear both, dual-drain the current cell into both, then drain the
scratch back into the current cell. -/
def cpAST (a b : Int) : List BF :=
  astShift a ++ (.loop (.dec :: []) ::
    (astShift (b - a) ++ (.loop (.dec :: []) ::
      (astShift (-b) ++
        (.loop (.dec :: (astShift a ++ (.inc :: (astShift (b - a) ++ (.inc :: astShift (-b)))))) ::
          (astShift b ++
            (.loop (.dec :: (astShift (-b) ++ (.inc :: astShift b))) ::
              astShift (-b))))))))

/-! ## Tape-update algebra -/

@[simp] theorem updTape_same (t : Int → Nat) (i : Int) (v : Nat) : updTape t i v i = v := by
  simp [updTape]

theorem updTape_other (t : Int → Nat) {i j : Int} (v : Nat) (h : j ≠ i) : updTape t i v j = t j := by
  simp [updTape, h]

theorem updTape_self (t : Int → Nat) (i : Int) : updTape t i (t i) = t := by
  funext j
  by_cases h : j = i <;> simp [updTape, h]

theorem updTape_updTape_same (t : Int → Nat) (i : Int) (v w : Nat) :
    updTape (updTape t i v) i w = updTape t i w := by
  funext j
  by_cases h : j = i <;> simp [updTape, h]

/-! ## Executor equations and fuel lemmas -/

theorem run_nil (f : Nat) (s : BfState) : run f [] s = some s := by
  cases f <;> rfl

theorem run_cons_right (f : Nat) (r : List BF) (s : BfState) :
    run f (.right :: r) s = run f r ⟨s.tape, s.ptr + 1⟩ := by
  cases f <;> rfl

theorem run_cons_left (f : Nat) (r : List BF) (s : BfState) :
    run f (.left :: r) s = run f r ⟨s.tape, s.ptr - 1⟩ := by
  cases f <;> rfl

theorem run_cons_inc (f : Nat) (r : List BF) (s : BfState) :
    run f (.inc :: r) s = run f r ⟨updTape s.tape s.ptr (s.tape s.ptr + 1), s.ptr⟩ := by
  cases f <;> rfl

theorem run_cons_dec (f : Nat) (r : List BF) (s : BfState) :
    run f (.dec :: r) s = run f r ⟨updTape s.tape s.ptr (s.tape s.ptr - 1), s.ptr⟩ := by
  cases f <;> rfl

theorem run_loop_zero (f : Nat) (b r : List BF) (s : BfState) (hc : s.tape s.ptr = 0) :
    run f (.loop b :: r) s = run f r s := by
  cases f with
  | zero => simp [run, run0, hc]
  | succ f => simp [run, runS, hc]

theorem run_zero_loop_pos (b r : List BF) (s : BfState) (hc : s.tape s.ptr ≠ 0) :
    run 0 (.loop b :: r) s = none := by
  simp [run, run0, hc]

theorem run_succ_loop_pos (f : Nat) (b r : List BF) (s : BfState) (hc : s.tape s.ptr ≠ 0) :
    run (f + 1) (.loop b :: r) s =
      match run f b s with
      | none => none
      | some s' => run f (.loop b :: r) s' := by
  simp [run, runS, hc]

theorem runS_mono {A B : List BF → BfState → Option BfState}
    (hAB : ∀ q s s', A q s = some s' → B q s = some s') :
    ∀ q s s', runS A q s = some s' → runS B q s = some s' := by
  intro q
  induction q with
  | nil => intro s s' h; exact h
  | cons i r ih =>
    intro s s' h
    cases i with
    | right => exact ih _ _ h
    | left => exact ih _ _ h
    | inc => exact ih _ _ h
    | dec => exact ih _ _ h
    | loop b =>
      by_cases hc : s.tape s.ptr = 0
      · simp only [runS, if_pos hc] at h ⊢
        exact ih _ _ h
      · simp only [runS, if_neg hc] at h ⊢
        cases hA : A b s with
        | none => rw [hA] at h; exact absurd h (by simp)
        | some u =>
          rw [hA] at h
          rw [hAB _ _ _ hA]
          exact hAB _ _ _ h

theorem run0_le (A : List BF → BfState → Option BfState) :
    ∀ q s s', run0 q s = some s' → runS A q s = some s' := by
  intro q
  induction q with
  | nil => intro s s' h; exact h
  | cons i r ih =>
    intro s s' h
    cases i with
    | right => exact ih _ _ h
    | left => exact ih _ _ h
    | inc => exact ih _ _ h
    | dec => exact ih _ _ h
    | loop b =>
      by_cases hc : s.tape s.ptr = 0
      · simp only [run0, if_pos hc] at h
        simp only [runS, if_pos hc]
        exact ih _ _ h
      · simp only [run0, if_neg hc] at h
        exact absurd h (by simp)

theorem run_succ_of (f : Nat) :
    ∀ q s s', run f q s = some s' → run (f + 1) q s = some s' := by
  induction f with
  | zero => exact run0_le (run 0)
  | succ f ih => exact runS_mono ih

theorem run_mono {f g : Nat} (hle : f ≤ g) {q : List BF} {s s' : BfState}
    (h : run f q s = some s') : run g q s = some s' := by
  induction hle with
  | refl => exact h
  | step _ ih => exact run_succ_of _ _ _ _ ih

theorem run_det {f g : Nat} {q : List BF} {s a b : BfState}
    (hf : run f q s = some a) (hg : run g q s = some b) : a = b := by
  have h1 := run_mono (Nat.le_max_left f g) hf
  have h2 := run_mono (Nat.le_max_right f g) hg
  rw [h1] at h2
  exact (Option.some.injEq _ _ ▸ h2).symm ▸ rfl

theorem run_seq (g : Nat) (bp : List BF) (s₂ : BfState) :
    ∀ f a s s₁, run f a s = some s₁ → run g bp s₁ = some s₂ →
      run (f + g) (a ++ bp) s = some s₂ := by
  intro f
  induction f with
  | zero =>
    intro a
    induction a with
    | nil =>
      intro s s₁ h1 h2
      rw [run_nil] at h1
      cases h1
      simpa using run_mono (Nat.le_add_left g 0) h2
    | cons i r ih =>
      intro s s₁ h1 h2
      cases i with
      | right =>
        rw [run_cons_right] at h1
        rw [List.cons_append, run_cons_right]
        exact ih _ _ h1 h2
      | left =>
        rw [run_cons_left] at h1
        rw [List.cons_append, run_cons_left]
        exact ih _ _ h1 h2
      | inc =>
        rw [run_cons_inc] at h1
        rw [List.cons_append, run_cons_inc]
        exact ih _ _ h1 h2
      | dec =>
        rw [run_cons_dec] at h1
        rw [List.cons_append, run_cons_dec]
        exact ih _ _ h1 h2
      | loop b =>
        by_cases hc : s.tape s.ptr = 0
        · rw [run_loop_zero _ _ _ _ hc] at h1
          rw [List.cons_append, run_loop_zero _ _ _ _ hc]
          exact ih _ _ h1 h2
        · rw [run_zero_loop_pos _ _ _ hc] at h1
          exact absurd h1 (by simp)
  | succ f ihf =>
    intro a
    induction a with
    | nil =>
      intro s s₁ h1 h2
      rw [run_nil] at h1
      cases h1
      simpa using run_mono (Nat.le_add_left g (f + 1)) h2
    | cons i r ih =>
      intro s s₁ h1 h2
      cases i with
      | right =>
        rw [run_cons_right] at h1
        rw [List.cons_append, run_cons_right]
        exact ih _ _ h1 h2
      | left =>
        rw [run_cons_left] at h1
        rw [List.cons_append, run_cons_left]
        exact ih _ _ h1 h2
      | inc =>
        rw [run_cons_inc] at h1
        rw [List.cons_append, run_cons_inc]
        exact ih _ _ h1 h2
      | dec =>
        rw [run_cons_dec] at h1
        rw [List.cons_append, run_cons_dec]
        exact ih _ _ h1 h2
      | loop b =>
        by_cases hc : s.tape s.ptr = 0
        · rw [run_loop_zero _ _ _ _ hc] at h1
          rw [List.cons_append, run_loop_zero _ _ _ _ hc]
          exact ih _ _ h1 h2
        · rw [run_succ_loop_pos _ _ _ _ hc] at h1
          cases hb : run f b s with
          | none => rw [hb] at h1; exact absurd h1 (by simp)
          | some u =>
            rw [hb] at h1
            have e : f + 1 + g = (f + g) + 1 := by omega
            rw [List.cons_append, e, run_succ_loop_pos _ _ _ _ hc]
            rw [run_mono (Nat.le_add_right f g) hb]
            have := ihf (.loop b :: r) u s₁ h1 h2
            rw [List.cons_append] at this
            exact this

/-! ## Relational execution -/

theorem runs_nil (s : BfState) : Runs [] s s := ⟨0, rfl⟩

theorem runs_append {a b : List BF} {s s₁ s₂ : BfState}
    (h1 : Runs a s s₁) (h2 : Runs b s₁ s₂) : Runs (a ++ b) s s₂ := by
  obtain ⟨f, hf⟩ := h1
  obtain ⟨g, hg⟩ := h2
  exact ⟨f + g, run_seq g b s₂ f a s s₁ hf hg⟩

theorem runs_det {q : List BF} {s a b : BfState} (h1 : Runs q s a) (h2 : Runs q s b) : a = b := by
  obtain ⟨f, hf⟩ := h1
  obtain ⟨g, hg⟩ := h2
  exact run_det hf hg

theorem runs_cons_right {r : List BF} {t : Int → Nat} {p : Int} {s' : BfState}
    (h : Runs r ⟨t, p + 1⟩ s') : Runs (.right :: r) ⟨t, p⟩ s' := by
  obtain ⟨f, hf⟩ := h
  exact ⟨f, by rw [run_cons_right]; exact hf⟩

theorem runs_cons_left {r : List BF} {t : Int → Nat} {p : Int} {s' : BfState}
    (h : Runs r ⟨t, p - 1⟩ s') : Runs (.left :: r) ⟨t, p⟩ s' := by
  obtain ⟨f, hf⟩ := h
  exact ⟨f, by rw [run_cons_left]; exact hf⟩

theorem runs_cons_inc {r : List BF} {t : Int → Nat} {p : Int} {s' : BfState}
    (h : Runs r ⟨updTape t p (t p + 1), p⟩ s') : Runs (.inc :: r) ⟨t, p⟩ s' := by
  obtain ⟨f, hf⟩ := h
  exact ⟨f, by rw [run_cons_inc]; exact hf⟩

theorem runs_cons_dec {r : List BF} {t : Int → Nat} {p : Int} {s' : BfState}
    (h : Runs r ⟨updTape t p (t p - 1), p⟩ s') : Runs (.dec :: r) ⟨t, p⟩ s' := by
  obtain ⟨f, hf⟩ := h
  exact ⟨f, by rw [run_cons_dec]; exact hf⟩

theorem runs_loop_zero {b : List BF} {s : BfState} (hc : s.tape s.ptr = 0) :
    Runs (.loop b :: []) s s := by
  exact ⟨0, by rw [run_loop_zero _ _ _ _ hc]; exact run_nil 0 s⟩

theorem runs_loop_iter {b : List BF} {s s₁ s₂ : BfState} (hc : s.tape s.ptr ≠ 0)
    (h1 : Runs b s s₁) (h2 : Runs (.loop b :: []) s₁ s₂) : Runs (.loop b :: []) s s₂ := by
  obtain ⟨f, hf⟩ := h1
  obtain ⟨g, hg⟩ := h2
  refine ⟨f + g + 1, ?_⟩
  rw [run_succ_loop_pos _ _ _ _ hc]
  rw [run_mono (Nat.le_add_right f g) hf]
  exact run_mono (Nat.le_add_left g f) hg

/-! ## Fragment building blocks: shifts, increments, loops -/

theorem runs_rights (k : Nat) (t : Int → Nat) : ∀ p : Int,
    Runs (List.replicate k .right) ⟨t, p⟩ ⟨t, p + (k : Int)⟩ := by
  induction k with
  | zero => intro p; simpa using runs_nil ⟨t, p⟩
  | succ k ih =>
    intro p
    rw [List.replicate_succ]
    apply runs_cons_right
    have h := ih (p + 1)
    have e : p + 1 + (k : Int) = p + ((k : Int) + 1) := by ring
    rw [e] at h
    simpa using h

theorem runs_lefts (k : Nat) (t : Int → Nat) : ∀ p : Int,
    Runs (List.replicate k .left) ⟨t, p⟩ ⟨t, p - (k : Int)⟩ := by
  induction k with
  | zero => intro p; simpa using runs_nil ⟨t, p⟩
  | succ k ih =>
    intro p
    rw [List.replicate_succ]
    apply runs_cons_left
    have h := ih (p - 1)
    have e : p - 1 - (k : Int) = p - ((k : Int) + 1) := by ring
    rw [e] at h
    simpa using h

theorem runs_astShift (d : Int) (t : Int → Nat) (p : Int) :
    Runs (astShift d) ⟨t, p⟩ ⟨t, p + d⟩ := by
  unfold astShift
  split
  · have h := runs_rights d.toNat t p
    rwa [Int.toNat_of_nonneg (by assumption)] at h
  · rename_i hd
    have h := runs_lefts d.natAbs t p
    have e : p - (d.natAbs : Int) = p + d := by
      rw [Int.ofNat_natAbs_of_nonpos (le_of_not_le hd)]
      ring
    rwa [e] at h

theorem runs_incs (n : Nat) : ∀ (t : Int → Nat) (p : Int),
    Runs (List.replicate n .inc) ⟨t, p⟩ ⟨updTape t p (t p + n), p⟩ := by
  induction n with
  | zero =>
    intro t p
    have e : updTape t p (t p + 0) = t := by rw [Nat.add_zero]; exact updTape_self t p
    rw [e]
    exact runs_nil _
  | succ n ih =>
    intro t p
    rw [List.replicate_succ]
    apply runs_cons_inc
    have h := ih (updTape t p (t p + 1)) p
    have e : updTape (updTape t p (t p + 1)) p (updTape t p (t p + 1) p + n) =
        updTape t p (t p + (n + 1)) := by
      rw [updTape_same, updTape_updTape_same]
      have e2 : t p + 1 + n = t p + (n + 1) := by omega
      rw [e2]
    rwa [e] at h

theorem runs_clear (t : Int → Nat) (p : Int) :
    Runs (.loop (.dec :: []) :: []) ⟨t, p⟩ ⟨updTape t p 0, p⟩ := by
  generalize hv : t p = v
  induction v generalizing t with
  | zero =>
    have e : updTape t p 0 = t := by rw [← hv]; exact updTape_self t p
    rw [e]
    exact runs_loop_zero hv
  | succ v ih =>
    refine @runs_loop_iter (.dec :: []) ⟨t, p⟩ ⟨updTape t p v, p⟩ _ ?_ ?_ ?_
    · simp [hv]
    · apply runs_cons_dec
      have e : updTape t p (t p - 1) = updTape t p v := by rw [hv, Nat.add_sub_cancel]
      rw [e]
      exact runs_nil _
    · have h := ih (updTape t p v) (updTape_same t p v)
      rwa [updTape_updTape_same] at h

/-! ## Character shapes of the emitted fragments -/

theorem flatten_replicate_singleton (c : Char) (k : Nat) :
    (List.replicate k (c :: [])).flatten = List.replicate k c := by
  induction k with
  | zero => rfl
  | succ k ih => rw [List.replicate_succ, List.replicate_succ, List.flatten_cons, ih]; rfl

theorem write_multiple_single (c : Char) (n : Int) :
    write_multiple (c :: []) n = List.replicate n.toNat c := by
  unfold write_multiple
  exact flatten_replicate_singleton c n.toNat

theorem i32abs_of_range {n : Int} (h : -2147483648 < n) : i32abs n = (n.natAbs : Int) := by
  unfold i32abs
  rw [if_neg (by omega)]

theorem i32abs_toNat {n : Int} (h : -2147483648 < n) : (i32abs n).toNat = n.natAbs := by
  rw [i32abs_of_range h]
  omega

theorem write_chars (n : Nat) :
    write_instruction (.write n) = '[' :: '-' :: ']' :: List.replicate n '+' := rfl

theorem move_chars {n : Int} (h : -2147483648 < n) :
    write_instruction (.move n) = shiftChars n := by
  show write_multiple (if n < 0 then '<' :: [] else '>' :: []) (i32abs n) = shiftChars n
  by_cases hneg : n < 0
  · rw [if_pos hneg, write_multiple_single, i32abs_toNat h]
    unfold shiftChars
    rw [if_neg (by omega)]
  · rw [if_neg hneg, write_multiple_single, i32abs_toNat h]
    unfold shiftChars
    rw [if_pos (by omega)]
    congr 1
    omega

theorem shiftChars_neg_of_pos {n : Int} (h : ¬ n < 0) :
    shiftChars (-n) = List.replicate n.natAbs '<' := by
  unfold shiftChars
  by_cases h0 : n = 0
  · subst h0; simp
  · rw [if_neg (by omega)]
    congr 1
    omega

theorem shiftChars_pos_of_pos {n : Int} (h : ¬ n < 0) :
    shiftChars n = List.replicate n.natAbs '>' := by
  unfold shiftChars
  rw [if_pos (by omega)]
  congr 1
  omega

theorem shiftChars_neg_of_neg {n : Int} (h : n < 0) :
    shiftChars (-n) = List.replicate n.natAbs '>' := by
  unfold shiftChars
  rw [if_pos (by omega)]
  congr 1
  omega

theorem shiftChars_pos_of_neg {n : Int} (h : n < 0) :
    shiftChars n = List.replicate n.natAbs '<' := by
  unfold shiftChars
  rw [if_neg (by omega)]

theorem moveValue_chars {n : Int} (h : -2147483648 < n) :
    write_instruction (.moveValue n) =
      shiftChars n ++ ('[' :: '-' :: ']' ::
        (shiftChars (-n) ++ ('[' :: '-' ::
          (shiftChars n ++ ('+' :: (shiftChars (-n) ++ (']' :: []))))))) := by
  show write_multiple (if 0 < n then '>' :: [] else '<' :: []) (i32abs n) ++ CLEAR_REG
      ++ write_multiple (if 0 < n then '<' :: [] else '>' :: []) (i32abs n)
      ++ write_move_val_loop (i32abs n) (if 0 < n then '>' :: [] else '<' :: [])
          (if 0 < n then '<' :: [] else '>' :: []) = _
  unfold write_move_val_loop CLEAR_REG
  by_cases hpos : 0 < n
  · rw [if_pos hpos, if_pos hpos, write_multiple_single, write_multiple_single,
      i32abs_toNat h]
    rw [shiftChars_pos_of_pos (by omega), shiftChars_neg_of_pos (by omega)]
    simp [List.append_assoc]
  · rw [if_neg hpos, if_neg hpos, write_multiple_single, write_multiple_single,
      i32abs_toNat h]
    by_cases h0 : n = 0
    · subst h0
      simp [shiftChars, i32abs]
    · rw [shiftChars_pos_of_neg (by omega), shiftChars_neg_of_neg (by omega)]
      simp [List.append_assoc]

theorem write_move_chars {n : Int} (h : -2147483648 < n) : write_move n = shiftChars n := by
  unfold write_move
  by_cases h0 : n = 0
  · subst h0; simp [shiftChars]
  · by_cases hpos : 0 < n
    · rw [if_neg h0, if_pos hpos, write_multiple_single]
      unfold shiftChars
      rw [if_pos (by omega)]
    · rw [if_neg h0, if_neg hpos, write_multiple_single, i32abs_toNat h]
      unfold shiftChars
      rw [if_neg (by omega)]

theorem wrap32_eq_self {x : Int} (h1 : -2147483648 ≤ x) (h2 : x < 2147483648) : wrap32 x = x := by
  unfold wrap32
  rw [Int.emod_eq_of_lt (by omega) (by omega)]
  ring

theorem move_val_loop_chars {n : Int} (hlo : -2147483648 < n) (hhi : n < 2147483648) :
    write_move_val_loop (i32abs n) (move_sign_of (wrap32 (-n))) (move_sign_of n) =
      '[' :: '-' :: (shiftChars (-n) ++ ('+' :: (shiftChars n ++ (']' :: [])))) := by
  unfold write_move_val_loop
  rw [wrap32_eq_self (by omega) (by omega)]
  unfold move_sign_of
  by_cases hpos : 0 < n
  · rw [if_neg (by omega : ¬ (0:Int) ≤ -n), if_pos (by omega : (0:Int) ≤ n)]
    rw [write_multiple_single, write_multiple_single, i32abs_toNat hlo]
    rw [shiftChars_neg_of_pos (by omega), shiftChars_pos_of_pos (by omega)]
    simp [List.append_assoc]
  · by_cases h0 : n = 0
    · subst h0
      simp [i32abs, write_multiple, shiftChars]
    · have hneg : n < 0 := by omega
      rw [if_pos (by omega : (0:Int) ≤ -n), if_neg (by omega : ¬ (0:Int) ≤ n)]
      rw [write_multiple_single, write_multiple_single, i32abs_toNat hlo]
      rw [shiftChars_neg_of_neg hneg, shiftChars_pos_of_neg hneg]
      simp [List.append_assoc]

theorem copy_chars {a b : Int} (ha : -2147483648 < a) (hblo : -2147483648 < b)
    (hbhi : b < 2147483648) (hdlo : -2147483648 < b - a) (hdhi : b - a < 2147483648) :
    write_instruction (.copyValue a b) =
      shiftChars a ++ ('[' :: '-' :: ']' ::
        (shiftChars (b - a) ++ ('[' :: '-' :: ']' ::
          (shiftChars (-b) ++ ('[' :: '-' ::
            (shiftChars a ++ ('+' ::
              (shiftChars (b - a) ++ ('+' ::
                (shiftChars (-b) ++ (']' ::
                  (shiftChars b ++ ('[' :: '-' ::
                    (shiftChars (-b) ++ ('+' ::
                      (shiftChars b ++ (']' ::
                        shiftChars (-b)))))))))))))))))) := by
  simp only [write_instruction]
  rw [move_val_loop_chars hblo hbhi]
  rw [wrap32_eq_self (by omega) (by omega), wrap32_eq_self (by omega) (by omega)]
  rw [write_move_chars ha, write_move_chars hdlo, write_move_chars (by omega : -2147483648 < -b),
    write_move_chars hblo]
  simp [CLEAR_REG, List.append_assoc]

/-! ## Bracket-parser stepping lemmas -/

theorem pb_nil (acc : List BF) : pb [] acc [] = some acc.reverse := rfl

theorem pb_open (cs : List Char) (acc : List BF) (stk : List (List BF)) :
    pb ('[' :: cs) acc stk = pb cs [] (acc :: stk) := rfl

theorem pb_close (cs : List Char) (acc top : List BF) (stk : List (List BF)) :
    pb (']' :: cs) acc (top :: stk) = pb cs (.loop acc.reverse :: top) stk := rfl

theorem pb_gt (cs : List Char) (acc : List BF) (stk : List (List BF)) :
    pb ('>' :: cs) acc stk = pb cs (.right :: acc) stk := rfl

theorem pb_lt (cs : List Char) (acc : List BF) (stk : List (List BF)) :
    pb ('<' :: cs) acc stk = pb cs (.left :: acc) stk := rfl

theorem pb_plus (cs : List Char) (acc : List BF) (stk : List (List BF)) :
    pb ('+' :: cs) acc stk = pb cs (.inc :: acc) stk := rfl

theorem pb_minus (cs : List Char) (acc : List BF) (stk : List (List BF)) :
    pb ('-' :: cs) acc stk = pb cs (.dec :: acc) stk := rfl

theorem pb_clear (cs : List Char) (acc : List BF) (stk : List (List BF)) :
    pb ('[' :: '-' :: ']' :: cs) acc stk = pb cs (.loop (.dec :: []) :: acc) stk := rfl

theorem pb_replicate_step {c : Char} {x : BF}
    (hstep : ∀ cs acc stk, pb (c :: cs) acc stk = pb cs (x :: acc) stk) :
    ∀ (k : Nat) (cs : List Char) (acc : List BF) (stk : List (List BF)),
      pb (List.replicate k c ++ cs) acc stk = pb cs (List.replicate k x ++ acc) stk := by
  intro k
  induction k with
  | zero => intro cs acc stk; rfl
  | succ k ih =>
    intro cs acc stk
    rw [List.replicate_succ, List.cons_append, hstep, ih]
    congr 1
    rw [List.replicate_succ']
    simp [List.append_assoc]

theorem pb_shiftChars (d : Int) (cs : List Char) (acc : List BF) (stk : List (List BF)) :
    pb (shiftChars d ++ cs) acc stk = pb cs (astShift d ++ acc) stk := by
  unfold shiftChars astShift
  by_cases h : 0 ≤ d
  · rw [if_pos h, if_pos h]
    exact @pb_replicate_step '>' BF.right (fun _ _ _ => rfl) _ _ _ _
  · rw [if_neg h, if_neg h]
    exact @pb_replicate_step '<' BF.left (fun _ _ _ => rfl) _ _ _ _

theorem astShift_reverse (d : Int) : (astShift d).reverse = astShift d := by
  unfold astShift
  split <;> exact List.reverse_replicate _ _

/-! ## Parsing the emitted fragments -/

theorem parse_write_frag (n : Nat) : parseBF (write_instruction (.write n)) = some (writeAST n) := by
  rw [write_chars]
  show pb ('[' :: '-' :: ']' :: List.replicate n '+') [] [] = some (writeAST n)
  rw [pb_clear, ← List.append_nil (List.replicate n '+'),
    @pb_replicate_step '+' BF.inc (fun _ _ _ => rfl), pb_nil]
  simp [writeAST, List.reverse_append, List.reverse_replicate]

theorem parse_move_frag {n : Int} (h : -2147483648 < n) :
    parseBF (write_instruction (.move n)) = some (astShift n) := by
  rw [move_chars h]
  show pb (shiftChars n) [] [] = some (astShift n)
  rw [← List.append_nil (shiftChars n), pb_shiftChars, pb_nil]
  simp [astShift_reverse]

theorem parse_moveValue_frag {n : Int} (h : -2147483648 < n) :
    parseBF (write_instruction (.moveValue n)) = some (mvAST n) := by
  rw [moveValue_chars h]
  show pb _ [] [] = some (mvAST n)
  rw [pb_shiftChars, pb_clear, pb_shiftChars, pb_open, pb_minus, pb_shiftChars, pb_plus,
    pb_shiftChars, pb_close, pb_nil]
  simp [mvAST, List.reverse_append, astShift_reverse, List.append_assoc]

theorem parse_copy_frag {a b : Int} (ha : -2147483648 < a) (hblo : -2147483648 < b)
    (hbhi : b < 2147483648) (hdlo : -2147483648 < b - a) (hdhi : b - a < 2147483648) :
    parseBF (write_instruction (.copyValue a b)) = some (cpAST a b) := by
  rw [copy_chars ha hblo hbhi hdlo hdhi]
  show pb _ [] [] = some (cpAST a b)
  rw [pb_shiftChars, pb_clear, pb_shiftChars, pb_clear, pb_shiftChars, pb_open, pb_minus,
    pb_shiftChars, pb_plus, pb_shiftChars, pb_plus, pb_shiftChars, pb_close, pb_shiftChars,
    pb_open, pb_minus, pb_shiftChars, pb_plus, pb_shiftChars, pb_close]
  rw [← List.append_nil (shiftChars (-b)), pb_shiftChars, pb_nil]
  simp [cpAST, List.reverse_append, astShift_reverse, List.append_assoc]


/-! ## Drain loops: the value-transfer idiom -/

theorem runs_drain (d : Int) (hd : d ≠ 0) : ∀ (v : Nat) (t : Int → Nat) (p : Int), t p = v →
    Runs (.loop (.dec :: (astShift d ++ (.inc :: astShift (-d)))) :: []) ⟨t, p⟩
      ⟨updTape (updTape t p 0) (p + d) (t (p + d) + v), p⟩ := by
  intro v
  induction v with
  | zero =>
    intro t p hv
    have e : updTape (updTape t p 0) (p + d) (t (p + d) + 0) = t := by
      funext j
      by_cases h1 : j = p + d
      · subst h1
        simp [updTape, (show p + d ≠ p by omega)]
      · by_cases h2 : j = p
        · subst h2
          simp [updTape, h1, hv]
        · simp [updTape, h1, h2]
    rw [e]
    exact runs_loop_zero hv
  | succ v ih =>
    intro t p hv
    have hpd : p + d ≠ p := by omega
    have hbody : Runs (.dec :: (astShift d ++ (.inc :: astShift (-d)))) ⟨t, p⟩
        ⟨updTape (updTape t p v) (p + d) (t (p + d) + 1), p⟩ := by
      apply runs_cons_dec
      have e1 : updTape t p (t p - 1) = updTape t p v := by rw [hv, Nat.add_sub_cancel]
      rw [e1]
      refine runs_append (runs_astShift d (updTape t p v) p) ?_
      apply runs_cons_inc
      have e2 : updTape (updTape t p v) (p + d) (updTape t p v (p + d) + 1)
          = updTape (updTape t p v) (p + d) (t (p + d) + 1) := by
        rw [updTape_other t v hpd]
      rw [e2]
      have h3 := runs_astShift (-d) (updTape (updTape t p v) (p + d) (t (p + d) + 1)) (p + d)
      have e3 : p + d + -d = p := by ring
      rwa [e3] at h3
    have hc : t p ≠ 0 := by omega
    apply runs_loop_iter hc hbody
    have ht2 : updTape (updTape t p v) (p + d) (t (p + d) + 1) p = v := by
      simp [updTape, hpd, Ne.symm hpd]
    have h4 := ih _ p ht2
    have efin : updTape (updTape (updTape (updTape t p v) (p + d) (t (p + d) + 1)) p 0) (p + d)
        (updTape (updTape t p v) (p + d) (t (p + d) + 1) (p + d) + v)
        = updTape (updTape t p 0) (p + d) (t (p + d) + (v + 1)) := by
      funext j
      by_cases h1 : j = p + d
      · subst h1
        simp [updTape, hpd]
        try omega
      · by_cases h2 : j = p
        · subst h2
          simp [updTape, h1, Ne.symm hpd]
          try omega
        · simp [updTape, h1, h2]
          try omega
    rw [efin] at h4
    exact h4

theorem runs_dualDrain (a b : Int) (ha : a ≠ 0) (hb : b ≠ 0) (hab : a ≠ b) :
    ∀ (v : Nat) (t : Int → Nat) (p : Int), t p = v →
    Runs (.loop (.dec :: (astShift a ++ (.inc ::
        (astShift (b - a) ++ (.inc :: astShift (-b)))))) :: []) ⟨t, p⟩
      ⟨updTape (updTape (updTape t p 0) (p + a) (t (p + a) + v)) (p + b) (t (p + b) + v), p⟩ := by
  intro v
  induction v with
  | zero =>
    intro t p hv
    have e : updTape (updTape (updTape t p 0) (p + a) (t (p + a) + 0)) (p + b) (t (p + b) + 0)
        = t := by
      funext j
      by_cases h1 : j = p + b
      · subst h1
        simp [updTape, (show p + b ≠ p + a by omega), (show p + b ≠ p by omega)]
      · by_cases h2 : j = p + a
        · subst h2
          simp [updTape, h1, (show p + a ≠ p by omega)]
        · by_cases h3 : j = p
          · subst h3
            simp [updTape, h1, h2, hv]
          · simp [updTape, h1, h2, h3]
    rw [e]
    exact runs_loop_zero hv
  | succ v ih =>
    intro t p hv
    have hpa : p + a ≠ p := by omega
    have hpb : p + b ≠ p := by omega
    have hba : p + b ≠ p + a := by omega
    have hbody : Runs (.dec :: (astShift a ++ (.inc ::
        (astShift (b - a) ++ (.inc :: astShift (-b)))))) ⟨t, p⟩
        ⟨updTape (updTape (updTape t p v) (p + a) (t (p + a) + 1)) (p + b) (t (p + b) + 1), p⟩ := by
      apply runs_cons_dec
      have e1 : updTape t p (t p - 1) = updTape t p v := by rw [hv, Nat.add_sub_cancel]
      rw [e1]
      refine runs_append (runs_astShift a (updTape t p v) p) ?_
      apply runs_cons_inc
      have e2 : updTape (updTape t p v) (p + a) (updTape t p v (p + a) + 1)
          = updTape (updTape t p v) (p + a) (t (p + a) + 1) := by
        rw [updTape_other t v hpa]
      rw [e2]
      refine runs_append
        (runs_astShift (b - a) (updTape (updTape t p v) (p + a) (t (p + a) + 1)) (p + a)) ?_
      have e3 : p + a + (b - a) = p + b := by ring
      rw [e3]
      apply runs_cons_inc
      have e4 : updTape (updTape (updTape t p v) (p + a) (t (p + a) + 1)) (p + b)
            (updTape (updTape t p v) (p + a) (t (p + a) + 1) (p + b) + 1)
          = updTape (updTape (updTape t p v) (p + a) (t (p + a) + 1)) (p + b)
            (t (p + b) + 1) := by
        rw [updTape_other _ _ hba, updTape_other t v hpb]
      rw [e4]
      have h5 := runs_astShift (-b)
        (updTape (updTape (updTape t p v) (p + a) (t (p + a) + 1)) (p + b) (t (p + b) + 1)) (p + b)
      have e5 : p + b + -b = p := by ring
      rwa [e5] at h5
    have hc : t p ≠ 0 := by omega
    apply runs_loop_iter hc hbody
    have ht2 : updTape (updTape (updTape t p v) (p + a) (t (p + a) + 1)) (p + b) (t (p + b) + 1) p
        = v := by
      simp [updTape, Ne.symm hpa, Ne.symm hpb]
    have h4 := ih _ p ht2
    have efin : updTape (updTape (updTape
          (updTape (updTape (updTape t p v) (p + a) (t (p + a) + 1)) (p + b) (t (p + b) + 1)) p 0)
          (p + a)
          (updTape (updTape (updTape t p v) (p + a) (t (p + a) + 1)) (p + b) (t (p + b) + 1) (p + a)
            + v))
          (p + b)
          (updTape (updTape (updTape t p v) (p + a) (t (p + a) + 1)) (p + b) (t (p + b) + 1) (p + b)
            + v)
        = updTape (updTape (updTape t p 0) (p + a) (t (p + a) + (v + 1))) (p + b)
            (t (p + b) + (v + 1)) := by
      funext j
      by_cases h1 : j = p + b
      · subst h1
        simp [updTape, hba, hpb]
        try omega
      · by_cases h2 : j = p + a
        · subst h2
          simp [updTape, h1, hpa]
          try omega
        · by_cases h3 : j = p
          · subst h3
            simp [updTape, h1, h2, Ne.symm hpa, Ne.symm hpb]
            try omega
          · simp [updTape, h1, h2, h3]
            try omega
    rw [efin] at h4
    exact h4

/-! ## Bracket balance of emitted fragments -/

theorem brCount_open (cs : List Char) (d : Nat) : brCount ('[' :: cs) d = brCount cs (d + 1) := rfl

theorem brCount_close (cs : List Char) (d : Nat) :
    brCount (']' :: cs) (d + 1) = brCount cs d := rfl

theorem brCount_other (c : Char) (h1 : ¬ c = '[') (h2 : ¬ c = ']') (cs : List Char) (d : Nat) :
    brCount (c :: cs) d = brCount cs d := by
  simp [brCount, h1, h2]

theorem brCount_replicate_append (c : Char) (h1 : ¬ c = '[') (h2 : ¬ c = ']') (k : Nat) :
    ∀ (r : List Char) (d : Nat), brCount (List.replicate k c ++ r) d = brCount r d := by
  induction k with
  | zero => intro r d; rfl
  | succ k ih =>
    intro r d
    rw [List.replicate_succ, List.cons_append, brCount_other c h1 h2]
    exact ih r d

theorem brCount_wm_singleton_append (c : Char) (h1 : ¬ c = '[') (h2 : ¬ c = ']') (k : Int)
    (r : List Char) (d : Nat) : brCount (write_multiple (c :: []) k ++ r) d = brCount r d := by
  rw [write_multiple_single]
  exact brCount_replicate_append c h1 h2 _ r d

theorem brCount_write_move_append (m : Int) (r : List Char) (d : Nat) :
    brCount (write_move m ++ r) d = brCount r d := by
  unfold write_move
  by_cases h0 : m = 0
  · rw [if_pos h0]; rfl
  · by_cases hpos : 0 < m
    · rw [if_neg h0, if_pos hpos]
      exact brCount_wm_singleton_append '>' (by decide) (by decide) m r d
    · rw [if_neg h0, if_neg hpos]
      exact brCount_wm_singleton_append '<' (by decide) (by decide) (i32abs m) r d

theorem brCount_wm_sign_append (x k : Int) (r : List Char) (d : Nat) :
    brCount (write_multiple (move_sign_of x) k ++ r) d = brCount r d := by
  unfold move_sign_of
  split
  · exact brCount_wm_singleton_append '>' (by decide) (by decide) k r d
  · exact brCount_wm_singleton_append '<' (by decide) (by decide) k r d

theorem brCount_wmvl_sign_append (dist f b : Int) (r : List Char) (d : Nat) :
    brCount (write_move_val_loop dist (move_sign_of f) (move_sign_of b) ++ r) d
      = brCount r d := by
  unfold write_move_val_loop
  simp only [List.append_assoc, List.cons_append, List.nil_append]
  rw [brCount_open, brCount_other '-' (by decide) (by decide), brCount_wm_sign_append,
    brCount_other '+' (by decide) (by decide), brCount_wm_sign_append, brCount_close]

theorem brCount_instr_append : ∀ (i : Instruction) (r : List Char) (d : Nat),
    brCount (write_instruction i ++ r) d = brCount r d := by
  intro i r d
  cases i with
  | print => exact brCount_other '.' (by decide) (by decide) r d
  | input => exact brCount_other ',' (by decide) (by decide) r d
  | write n =>
    show brCount ('[' :: '-' :: ']' :: (List.replicate n '+' ++ r)) d = brCount r d
    rw [brCount_open, brCount_other '-' (by decide) (by decide), brCount_close]
    exact brCount_replicate_append '+' (by decide) (by decide) n r d
  | move n =>
    show brCount (write_multiple (if n < 0 then '<' :: [] else '>' :: []) (i32abs n) ++ r) d
      = brCount r d
    by_cases hneg : n < 0
    · rw [if_pos hneg]
      exact brCount_wm_singleton_append '<' (by decide) (by decide) _ r d
    · rw [if_neg hneg]
      exact brCount_wm_singleton_append '>' (by decide) (by decide) _ r d
  | moveValue n =>
    simp only [write_instruction, write_move_val_loop, CLEAR_REG, List.append_assoc,
      List.cons_append, List.nil_append]
    by_cases hpos : 0 < n
    · simp only [if_pos hpos]
      rw [brCount_wm_singleton_append '>' (by decide) (by decide), brCount_open,
        brCount_other '-' (by decide) (by decide), brCount_close,
        brCount_wm_singleton_append '<' (by decide) (by decide), brCount_open,
        brCount_other '-' (by decide) (by decide),
        brCount_wm_singleton_append '>' (by decide) (by decide),
        brCount_other '+' (by decide) (by decide),
        brCount_wm_singleton_append '<' (by decide) (by decide), brCount_close]
    · simp only [if_neg hpos]
      rw [brCount_wm_singleton_append '<' (by decide) (by decide), brCount_open,
        brCount_other '-' (by decide) (by decide), brCount_close,
        brCount_wm_singleton_append '>' (by decide) (by decide), brCount_open,
        brCount_other '-' (by decide) (by decide),
        brCount_wm_singleton_append '<' (by decide) (by decide),
        brCount_other '+' (by decide) (by decide),
        brCount_wm_singleton_append '>' (by decide) (by decide), brCount_close]
  | copyValue a b =>
    simp only [write_instruction, CLEAR_REG, List.append_assoc, List.cons_append,
      List.nil_append]
    rw [brCount_write_move_append, brCount_open,
      brCount_other '-' (by decide) (by decide), brCount_close,
      brCount_write_move_append, brCount_open,
      brCount_other '-' (by decide) (by decide), brCount_close,
      brCount_write_move_append, brCount_open,
      brCount_other '-' (by decide) (by decide),
      brCount_write_move_append, brCount_other '+' (by decide) (by decide),
      brCount_write_move_append, brCount_other '+' (by decide) (by decide),
      brCount_write_move_append, brCount_close,
      brCount_write_move_append, brCount_wmvl_sign_append,
      brCount_write_move_append]

theorem brCount_compile : ∀ (instructions : List Instruction) (d : Nat),
    brCount (compile instructions) d = some d := by
  intro instructions
  induction instructions with
  | nil => intro d; rfl
  | cons i is ih =>
    intro d
    show brCount ((write_instruction i ++ '\n' :: []) ++ compile is) d = some d
    rw [List.append_assoc, brCount_instr_append, List.cons_append, List.nil_append,
      brCount_other '\n' (by decide) (by decide)]
    exact ih d

/-! ## Totality of the writer-threaded code generator -/

theorem write_multiple_w_total {σ : Type} (wa : σ → List Char → Option σ)
    (H : ∀ st cs, (wa st cs).isSome) (bytes : List Char) :
    ∀ (k : Nat) (st : σ), (write_multiple_w wa bytes k st).isSome := by
  intro k
  induction k with
  | zero => intro st; simp [write_multiple_w]
  | succ k ih =>
    intro st
    simp only [write_multiple_w]
    cases hwa : wa st bytes with
    | none => have h := H st bytes; rw [hwa] at h; simp at h
    | some st2 => exact ih st2

theorem write_moveG_total {σ : Type} (wa : σ → List Char → Option σ)
    (H : ∀ st cs, (wa st cs).isSome) (st : σ) (m : Int) :
    (write_moveG wa st m).isSome := by
  unfold write_moveG write_multipleG
  split
  · simp
  · split <;> exact write_multiple_w_total wa H _ _ st

theorem write_move_val_loopG_total {σ : Type} (wa : σ → List Char → Option σ)
    (H : ∀ st cs, (wa st cs).isSome) (st : σ) (dist : Int) (sf sb : List Char) :
    (write_move_val_loopG wa st dist sf sb).isSome := by
  unfold write_move_val_loopG write_multipleG
  obtain ⟨s1, h1⟩ := Option.isSome_iff_exists.mp (H st ('[' :: '-' :: []))
  obtain ⟨s2, h2⟩ := Option.isSome_iff_exists.mp (write_multiple_w_total wa H sf dist.toNat s1)
  obtain ⟨s3, h3⟩ := Option.isSome_iff_exists.mp (H s2 ('+' :: []))
  obtain ⟨s4, h4⟩ := Option.isSome_iff_exists.mp (write_multiple_w_total wa H sb dist.toNat s3)
  simp only [h1, h2, h3, h4]
  exact H s4 (']' :: [])


theorem write_instructionG_total {σ : Type} (wa : σ → List Char → Option σ)
    (H : ∀ st cs, (wa st cs).isSome) (st : σ) (i : Instruction) :
    (write_instructionG wa st i).isSome := by
  cases i with
  | print => exact H st _
  | input => exact H st _
  | write n =>
    obtain ⟨s1, h1⟩ := Option.isSome_iff_exists.mp (H st CLEAR_REG)
    simp only [write_instructionG, h1]
    exact write_multiple_w_total wa H _ n s1
  | move n =>
    simp only [write_instructionG, write_multipleG]
    exact write_multiple_w_total wa H _ _ st
  | moveValue n =>
    simp only [write_instructionG]
    obtain ⟨s1, h1⟩ := Option.isSome_iff_exists.mp
      (write_multiple_w_total wa H (if 0 < n then '>' :: [] else '<' :: []) (i32abs n).toNat st)
    simp only [write_multipleG, h1]
    obtain ⟨s2, h2⟩ := Option.isSome_iff_exists.mp (H s1 CLEAR_REG)
    simp only [h2]
    obtain ⟨s3, h3⟩ := Option.isSome_iff_exists.mp
      (write_multiple_w_total wa H (if 0 < n then '<' :: [] else '>' :: []) (i32abs n).toNat s2)
    simp only [h3]
    exact write_move_val_loopG_total wa H s3 _ _ _
  | copyValue a b =>
    simp only [write_instructionG]
    obtain ⟨s1, h1⟩ := Option.isSome_iff_exists.mp (write_moveG_total wa H st a)
    simp only [h1]
    obtain ⟨s2, h2⟩ := Option.isSome_iff_exists.mp (H s1 CLEAR_REG)
    simp only [h2]
    obtain ⟨s3, h3⟩ := Option.isSome_iff_exists.mp (write_moveG_total wa H s2 (wrap32 (b - a)))
    simp only [h3]
    obtain ⟨s4, h4⟩ := Option.isSome_iff_exists.mp (H s3 CLEAR_REG)
    simp only [h4]
    obtain ⟨s5, h5⟩ := Option.isSome_iff_exists.mp (write_moveG_total wa H s4 (wrap32 (-b)))
    simp only [h5]
    obtain ⟨s6, h6⟩ := Option.isSome_iff_exists.mp (H s5 ('[' :: '-' :: []))
    simp only [h6]
    obtain ⟨s7, h7⟩ := Option.isSome_iff_exists.mp (write_moveG_total wa H s6 a)
    simp only [h7]
    obtain ⟨s8, h8⟩ := Option.isSome_iff_exists.mp (H s7 ('+' :: []))
    simp only [h8]
    obtain ⟨s9, h9⟩ := Option.isSome_iff_exists.mp (write_moveG_total wa H s8 (wrap32 (b - a)))
    simp only [h9]
    obtain ⟨s10, h10⟩ := Option.isSome_iff_exists.mp (H s9 ('+' :: []))
    simp only [h10]
    obtain ⟨s11, h11⟩ := Option.isSome_iff_exists.mp (write_moveG_total wa H s10 (wrap32 (-b)))
    simp only [h11]
    obtain ⟨s12, h12⟩ := Option.isSome_iff_exists.mp (H s11 (']' :: []))
    simp only [h12]
    obtain ⟨s13, h13⟩ := Option.isSome_iff_exists.mp (write_moveG_total wa H s12 b)
    simp only [h13]
    obtain ⟨s14, h14⟩ := Option.isSome_iff_exists.mp
      (write_move_val_loopG_total wa H s13 (i32abs b) (move_sign_of (wrap32 (-b)))
        (move_sign_of b))
    simp only [h14]
    exact write_moveG_total wa H s14 (wrap32 (-b))

theorem write_multiple_w_list (bytes : List Char) : ∀ (k : Nat) (buf : List Char),
    write_multiple_w listWriter bytes k buf = some (buf ++ (List.replicate k bytes).flatten) := by
  intro k
  induction k with
  | zero => intro buf; simp [write_multiple_w]
  | succ k ih =>
    intro buf
    simp only [write_multiple_w, listWriter]
    rw [ih]
    simp [List.replicate_succ, List.append_assoc]

theorem write_multipleG_list (buf bytes : List Char) (n : Int) :
    write_multipleG listWriter buf bytes n = some (buf ++ write_multiple bytes n) := by
  unfold write_multipleG write_multiple
  exact write_multiple_w_list bytes n.toNat buf

theorem write_moveG_list (buf : List Char) (m : Int) :
    write_moveG listWriter buf m = some (buf ++ write_move m) := by
  unfold write_moveG write_move
  split
  · simp
  · split <;> exact write_multipleG_list buf _ _

theorem write_move_val_loopG_list (buf : List Char) (dist : Int) (sf sb : List Char) :
    write_move_val_loopG listWriter buf dist sf sb
      = some (buf ++ write_move_val_loop dist sf sb) := by
  simp only [write_move_val_loopG, write_move_val_loop, listWriter, write_multipleG,
    write_multiple_w_list]
  simp [write_multiple, List.append_assoc]

theorem write_instructionG_list (i : Instruction) : ∀ buf : List Char,
    write_instructionG listWriter buf i = some (buf ++ write_instruction i) := by
  intro buf
  cases i with
  | print => simp [write_instructionG, write_instruction, listWriter]
  | input => simp [write_instructionG, write_instruction, listWriter]
  | write n =>
    simp only [write_instructionG, write_instruction, listWriter, write_multiple_w_list]
    simp [flatten_replicate_singleton, List.append_assoc]
  | move n =>
    simp only [write_instructionG, write_instruction, write_multipleG_list]
  | moveValue n =>
    simp only [write_instructionG, write_instruction, listWriter, write_multipleG_list,
      write_move_val_loopG_list]
    simp [List.append_assoc]
  | copyValue a b =>
    simp only [write_instructionG, write_instruction, listWriter, write_moveG_list,
      write_move_val_loopG_list]
    simp [List.append_assoc]


/-! ## Claim theorems -/

/-- C5: for every u32 value n, the fragment emitted for Write(n) is the
clear-register loop followed by exactly n increment primitives, and executing
it leaves the current register holding exactly n regardless of its prior
value, with the pointer unchanged (and every other cell untouched). -/
theorem write_correct (n : Nat) (t : Int → Nat) (p : Int) :
    write_instruction (.write n) = CLEAR_REG ++ List.replicate n '+' ∧
    parseBF (write_instruction (.write n)) = some (writeAST n) ∧
    Runs (writeAST n) ⟨t, p⟩ ⟨updTape t p n, p⟩ := by
  refine ⟨rfl, parse_write_frag n, ?_⟩
  have h1 := runs_clear t p
  have h2 := runs_incs n (updTape t p 0) p
  have e : updTape (updTape t p 0) p (updTape t p 0 p + n) = updTape t p n := by
    rw [updTape_same, updTape_updTape_same, Nat.zero_add]
  rw [e] at h2
  have h3 := runs_append h1 h2
  simpa [writeAST] using h3

/-- C6 (amended): for every i32 n other than the minimum, the fragment emitted
for Move(n) is exactly n right-shifts when n is positive, |n| left-shifts when
negative, and empty when zero. At n = -2^31 the wrapping absolute value makes
the emitted fragment empty instead (see the counterexample). -/
theorem move_fragment_correct (n : Int) (hlo : -2147483648 < n) (hhi : n < 2147483648) :
    write_instruction (.move n) =
      if 0 < n then List.replicate n.toNat '>'
      else if n < 0 then List.replicate n.natAbs '<'
      else [] := by
  rw [move_chars hlo]
  unfold shiftChars
  by_cases hpos : 0 < n
  · rw [if_pos (by omega : (0:Int) ≤ n), if_pos hpos]
  · by_cases h0 : n = 0
    · subst h0
      simp
    · rw [if_neg (by omega : ¬ (0:Int) ≤ n), if_neg hpos, if_pos (by omega : n < 0)]

theorem move_fragment_correct_witness :
    ((-2147483648 : Int) < -3 ∧ (-3 : Int) < 2147483648) ∧
    write_instruction (.move (-3)) =
      (if (0 : Int) < -3 then List.replicate ((-3 : Int)).toNat '>'
       else if (-3 : Int) < 0 then List.replicate ((-3 : Int)).natAbs '<'
       else []) :=
  ⟨⟨by decide, by decide⟩, move_fragment_correct (-3) (by decide) (by decide)⟩

/-- C6 counterexample: at the i32 minimum the emitted Move fragment is empty,
not 2^31 left-shift primitives as the claim requires. -/
theorem move_fragment_cex :
    write_instruction (.move (-2147483648)) = [] ∧
    List.replicate (Int.natAbs (-2147483648)) '<' ≠ ([] : List Char) := by
  constructor
  · rfl
  · intro h
    have h2 := congrArg List.length h
    rw [List.length_replicate, List.length_nil] at h2
    omega

/-- C8: for every i32 n, the concatenation of the fragments emitted for
Move(n) and Move(-n) (negation taken as i32, so it wraps at the minimum)
returns the pointer to the register it started on and leaves the tape
untouched. -/
theorem move_roundtrip (n : Int) (hlo : -2147483648 ≤ n) (hhi : n < 2147483648)
    (t : Int → Nat) (p : Int) :
    ∃ prog, parseBF (write_instruction (.move n) ++ write_instruction (.move (wrap32 (-n))))
        = some prog ∧
      Runs prog ⟨t, p⟩ ⟨t, p⟩ := by
  by_cases hmin : n = -2147483648
  · subst hmin
    have h2 : wrap32 (-(-2147483648)) = -2147483648 := by
      unfold wrap32
      decide
    rw [h2]
    exact ⟨[], rfl, runs_nil _⟩
  · have hlo2 : -2147483648 < n := by omega
    have hw : wrap32 (-n) = -n := wrap32_eq_self (by omega) (by omega)
    rw [hw, move_chars hlo2, move_chars (by omega : -2147483648 < -n)]
    refine ⟨astShift n ++ astShift (-n), ?_, ?_⟩
    · show pb _ [] [] = _
      rw [pb_shiftChars, ← List.append_nil (shiftChars (-n)), pb_shiftChars, pb_nil]
      simp [List.reverse_append, astShift_reverse]
    · have h1 := runs_astShift n t p
      have h2 := runs_astShift (-n) t (p + n)
      have e : p + n + -n = p := by ring
      rw [e] at h2
      exact runs_append h1 h2

theorem move_roundtrip_witness :
    ((-2147483648 : Int) ≤ 2 ∧ (2 : Int) < 2147483648) ∧
    (∃ prog, parseBF (write_instruction (.move 2) ++ write_instruction (.move (wrap32 (-2))))
        = some prog ∧
      Runs prog ⟨fun _ => 7, 5⟩ ⟨fun _ => 7, 5⟩) :=
  ⟨⟨by decide, by decide⟩, move_roundtrip 2 (by decide) (by decide) (fun _ => 7) 5⟩

/-- C10: every instruction's fragment has balanced, well-nested loop brackets,
and so does the concatenated output of compile for every program. -/
theorem fragments_balanced :
    (∀ i : Instruction, balanced (write_instruction i)) ∧
    (∀ instructions : List Instruction, balanced (compile instructions)) := by
  constructor
  · intro i
    have h := brCount_instr_append i [] 0
    rw [List.append_nil] at h
    exact h.trans rfl
  · intro l
    exact brCount_compile l 0

/-- C7: code generation is total. Against any abstract writer whose write_all
never fails, write_instruction succeeds on every instruction of the closed
variant set; and against the infallible list writer it emits exactly the pure
fragment, so every failure of the real function is an I/O failure of the
writer. -/
theorem write_instruction_total {σ : Type} (wa : σ → List Char → Option σ)
    (H : ∀ st cs, (wa st cs).isSome) (i : Instruction) (st : σ) (buf : List Char) :
    (write_instructionG wa st i).isSome ∧
      write_instructionG listWriter buf i = some (buf ++ write_instruction i) :=
  ⟨write_instructionG_total wa H st i, write_instructionG_list i buf⟩

theorem write_instruction_total_witness :
    (∀ (st cs : List Char), (listWriter st cs).isSome) ∧
    ((write_instructionG listWriter ('x' :: []) (.copyValue 3 (-2))).isSome ∧
      write_instructionG listWriter ('y' :: []) (.copyValue 3 (-2))
        = some ('y' :: [] ++ write_instruction (.copyValue 3 (-2)))) :=
  ⟨fun _ _ => rfl,
    (write_instruction_total listWriter (fun _ _ => rfl) (.copyValue 3 (-2))
      ('x' :: []) ('y' :: [])).1,
    (write_instruction_total listWriter (fun _ _ => rfl) (.copyValue 3 (-2))
      ('x' :: []) ('y' :: [])).2⟩

/-- C2 (code bug): the parser model evaluated at an input with an unknown
mnemonic returns a successful empty parse, and a partial program when valid
instructions precede the unknown word; fold_many0 treats the dispatch failure
as a recoverable backtrack and parse discards the unconsumed rest, so the
assembly is not aborted as the spec requires. -/
theorem parse_unknown_mnemonic_partial :
    parse ("FOO".toList) = .ok [] ∧
    parse ("WRITE 5 FOO".toList) = .ok (Instruction.write 5 :: []) := ⟨rfl, rfl⟩

/-- C1 (amended): for every i32 offset n with n ≠ 0 and n ≠ -2^31, executing
the MoveValue(n) fragment on an ideal tape zeroes the source register, leaves
the destination register holding exactly the source's old value v (the
destination's prior contents are discarded by the defensive clear, so the
result is v, not v + w), returns the pointer to the source register, and
touches no other cell. -/
theorem moveValue_correct (n : Int) (t : Int → Nat) (p : Int)
    (h0 : n ≠ 0) (hlo : -2147483648 < n) (hhi : n < 2147483648) :
    ∃ s' : BfState, parseBF (write_instruction (.moveValue n)) = some (mvAST n) ∧
      Runs (mvAST n) ⟨t, p⟩ s' ∧ s'.ptr = p ∧ s'.tape p = 0 ∧ s'.tape (p + n) = t p ∧
      ∀ q, q ≠ p → q ≠ p + n → s'.tape q = t q := by
  have hpn : p + n ≠ p := by omega
  have hsplit : mvAST n = astShift n ++ ((.loop (.dec :: []) :: []) ++ (astShift (-n)
      ++ (.loop (.dec :: (astShift n ++ (.inc :: astShift (-n)))) :: []))) := by
    simp [mvAST]
  have hrun : Runs (mvAST n) ⟨t, p⟩
      ⟨updTape (updTape (updTape t (p + n) 0) p 0) (p + n)
        (updTape t (p + n) 0 (p + n) + updTape t (p + n) 0 p), p⟩ := by
    rw [hsplit]
    refine runs_append (runs_astShift n t p) ?_
    refine runs_append (runs_clear t (p + n)) ?_
    have hshift := runs_astShift (-n) (updTape t (p + n) 0) (p + n)
    have e : p + n + -n = p := by ring
    rw [e] at hshift
    refine runs_append hshift ?_
    exact runs_drain n h0 (updTape t (p + n) 0 p) (updTape t (p + n) 0) p rfl
  refine ⟨_, parse_moveValue_frag hlo, hrun, rfl, ?_, ?_, ?_⟩
  · show updTape (updTape (updTape t (p + n) 0) p 0) (p + n) _ p = 0
    rw [updTape_other _ _ (Ne.symm hpn), updTape_same]
  · show updTape (updTape (updTape t (p + n) 0) p 0) (p + n)
      (updTape t (p + n) 0 (p + n) + updTape t (p + n) 0 p) (p + n) = t p
    rw [updTape_same, updTape_same, updTape_other t 0 (Ne.symm hpn)]
    omega
  · intro q hq hqn
    show updTape (updTape (updTape t (p + n) 0) p 0) (p + n) _ q = t q
    rw [updTape_other _ _ hqn, updTape_other _ _ hq, updTape_other _ _ hqn]

theorem moveValue_correct_witness :
    ((1 : Int) ≠ 0 ∧ (-2147483648 : Int) < 1 ∧ (1 : Int) < 2147483648) ∧
    (∃ s' : BfState, parseBF (write_instruction (.moveValue 1)) = some (mvAST 1) ∧
      Runs (mvAST 1) ⟨fun q => if q = 0 then 2 else 1, 0⟩ s' ∧ s'.ptr = 0 ∧
      s'.tape 0 = 0 ∧
      s'.tape (0 + 1) = (fun q : Int => if q = 0 then 2 else 1) 0 ∧
      ∀ q, q ≠ 0 → q ≠ 0 + 1 → s'.tape q = (fun q : Int => if q = 0 then 2 else 1) q) :=
  ⟨⟨by decide, by decide, by decide⟩,
    moveValue_correct 1 (fun q => if q = 0 then 2 else 1) 0 (by decide) (by decide) (by decide)⟩

/-- C1 counterexample: MoveValue(1) executed from source value 1 and
destination value 1 leaves the destination at 1, not at 1 + 1 = 2 as the
claim states; the run also confirms source 0 and pointer restored. -/
theorem moveValue_claim_cex :
    (parseBF (write_instruction (.moveValue 1))).bind
        (fun prog => (run 5 prog ⟨fun q => if q = 0 then 1 else if q = 1 then 1 else 0, 0⟩).map
          (fun s => (s.ptr, s.tape 0, s.tape 1)))
      = some (0, 0, 1) ∧ (1 : Nat) + 1 ≠ 1 := by
  constructor
  · rfl
  · decide


/-! ## Consumption bounds for the parser -/

theorem dropWhile_len_le (q : Char → Bool) : ∀ l : List Char, (l.dropWhile q).length ≤ l.length := by
  intro l
  induction l with
  | nil => simp
  | cons a l ih =>
    rw [List.dropWhile_cons]
    split
    · exact Nat.le_succ_of_le ih
    · simp

theorem dropWhile_lt_of_takeWhile_ne_nil (q : Char → Bool) (l : List Char)
    (h : l.takeWhile q ≠ []) : (l.dropWhile q).length < l.length := by
  cases l with
  | nil => simp [List.takeWhile_nil] at h
  | cons a l =>
    rw [List.dropWhile_cons]
    rw [List.takeWhile_cons] at h
    split
    · exact Nat.lt_succ_of_le (dropWhile_len_le q l)
    · rename_i hq
      rw [if_neg hq] at h
      exact absurd rfl h

theorem multispace0_le {i rest : List Char} {w : List Char} (h : multispace0 i = .ok (rest, w)) :
    rest.length ≤ i.length := by
  unfold multispace0 at h
  simp only [Except.ok.injEq, Prod.mk.injEq] at h
  obtain ⟨h1, _⟩ := h
  rw [← h1]
  exact dropWhile_len_le isWs i

theorem alpha1_lt {i rest : List Char} {w : List Char} (h : alpha1 i = .ok (rest, w)) :
    rest.length < i.length := by
  unfold alpha1 at h
  cases htw : i.takeWhile isAl with
  | nil => simp [htw] at h
  | cons c cs =>
    simp only [htw] at h
    simp only [Except.ok.injEq, Prod.mk.injEq] at h
    obtain ⟨h1, _⟩ := h
    rw [← h1]
    exact dropWhile_lt_of_takeWhile_ne_nil isAl i (by rw [htw]; simp)

theorem anyChar_lt {i rest : List Char} {c : Char} (h : anyChar i = .ok (rest, c)) :
    rest.length < i.length := by
  cases i with
  | nil => exact absurd h (by simp [anyChar])
  | cons a l =>
    simp only [anyChar, Except.ok.injEq, Prod.mk.injEq] at h
    obtain ⟨h1, _⟩ := h
    rw [← h1]
    simp

theorem tagChar_lt {c : Char} {i rest : List Char} {c' : Char} (h : tagChar c i = .ok (rest, c')) :
    rest.length < i.length := by
  cases i with
  | nil => exact absurd h (by simp [tagChar])
  | cons a l =>
    simp only [tagChar] at h
    split at h
    · simp only [Except.ok.injEq, Prod.mk.injEq] at h
      obtain ⟨h1, _⟩ := h
      rw [← h1]
      simp
    · exact absurd h (by simp)

theorem tagStr_le : ∀ (t i rest : List Char) (u : Unit), tagStr t i = .ok (rest, u) →
    rest.length ≤ i.length := by
  intro t
  induction t with
  | nil =>
    intro i rest u h
    simp only [tagStr, Except.ok.injEq, Prod.mk.injEq] at h
    obtain ⟨h1, _⟩ := h
    rw [← h1]
  | cons c t' ih =>
    intro i rest u h
    cases i with
    | nil => exact absurd h (by simp [tagStr])
    | cons c' i' =>
      simp only [tagStr] at h
      split at h
      · exact Nat.le_succ_of_le (ih i' rest u h)
      · exact absurd h (by simp)

theorem pmap_le {α β : Type} {q : Parser α} {f : α → β}
    (hq : ∀ i rest a, q i = .ok (rest, a) → rest.length ≤ i.length) :
    ∀ i rest b, pmap q f i = .ok (rest, b) → rest.length ≤ i.length := by
  intro i rest b h
  unfold pmap at h
  cases hqi : q i with
  | error e => simp [hqi] at h
  | ok ra =>
    obtain ⟨r, a⟩ := ra
    simp only [hqi] at h
    simp only [Except.ok.injEq, Prod.mk.injEq] at h
    obtain ⟨h1, _⟩ := h
    rw [← h1]
    exact hq i r a hqi

theorem alt2_le {α : Type} {q1 q2 : Parser α}
    (h1 : ∀ i rest a, q1 i = .ok (rest, a) → rest.length ≤ i.length)
    (h2 : ∀ i rest a, q2 i = .ok (rest, a) → rest.length ≤ i.length) :
    ∀ i rest a, alt2 q1 q2 i = .ok (rest, a) → rest.length ≤ i.length := by
  intro i rest a h
  unfold alt2 at h
  cases hq : q1 i with
  | error e =>
    simp only [hq] at h
    cases e with
    | backtrack => exact h2 i rest a h
    | cut => exact absurd h (by simp)
  | ok ra =>
    simp only [hq] at h
    cases h
    exact h1 i rest a hq

theorem delim_le {α β γ : Type} {qa : Parser α} {qb : Parser β} {qc : Parser γ}
    (ha : ∀ i rest a, qa i = .ok (rest, a) → rest.length ≤ i.length)
    (hb : ∀ i rest b, qb i = .ok (rest, b) → rest.length ≤ i.length)
    (hc : ∀ i rest c, qc i = .ok (rest, c) → rest.length ≤ i.length) :
    ∀ i rest b, delim qa qb qc i = .ok (rest, b) → rest.length ≤ i.length := by
  intro i rest b h
  unfold delim at h
  cases h1 : qa i with
  | error e => simp [h1] at h
  | ok r1 =>
    obtain ⟨i1, x1⟩ := r1
    simp only [h1] at h
    cases h2 : qb i1 with
    | error e => simp [h2] at h
    | ok r2 =>
      obtain ⟨i2, x2⟩ := r2
      simp only [h2] at h
      cases h3 : qc i2 with
      | error e => simp [h3] at h
      | ok r3 =>
        obtain ⟨i3, x3⟩ := r3
        simp only [h3] at h
        simp only [Except.ok.injEq, Prod.mk.injEq] at h
        obtain ⟨hr, _⟩ := h
        rw [← hr]
        exact le_trans (hc i2 i3 x3 h3) (le_trans (hb i1 i2 x2 h2) (ha i i1 x1 h1))

theorem dec_uint_le : ∀ (i rest : List Char) (v : Nat), dec_uint i = .ok (rest, v) →
    rest.length ≤ i.length := by
  intro i rest v h
  unfold dec_uint at h
  cases htw : i.takeWhile isDig with
  | nil => simp [htw] at h
  | cons d ds =>
    simp only [htw] at h
    split at h
    · simp only [Except.ok.injEq, Prod.mk.injEq] at h
      obtain ⟨h1, _⟩ := h
      rw [← h1]
      exact dropWhile_len_le isDig i
    · exact absurd h (by simp)

theorem dec_int_le : ∀ (i rest : List Char) (v : Int), dec_int i = .ok (rest, v) →
    rest.length ≤ i.length := by
  intro i rest v h
  unfold dec_int at h
  split at h
  · rename_i r
    cases htw : r.takeWhile isDig with
    | nil => simp [htw] at h
    | cons d ds =>
      simp only [htw] at h
      split at h
      · simp only [Except.ok.injEq, Prod.mk.injEq] at h
        obtain ⟨h1, _⟩ := h
        rw [← h1]
        exact Nat.le_succ_of_le (dropWhile_len_le isDig r)
      · exact absurd h (by simp)
  · rename_i r
    cases htw : r.takeWhile isDig with
    | nil => simp [htw] at h
    | cons d ds =>
      simp only [htw] at h
      split at h
      · simp only [Except.ok.injEq, Prod.mk.injEq] at h
        obtain ⟨h1, _⟩ := h
        rw [← h1]
        exact Nat.le_succ_of_le (dropWhile_len_le isDig r)
      · exact absurd h (by simp)
  · cases htw : i.takeWhile isDig with
    | nil => simp [htw] at h
    | cons d ds =>
      simp only [htw] at h
      split at h
      · simp only [Except.ok.injEq, Prod.mk.injEq] at h
        obtain ⟨h1, _⟩ := h
        rw [← h1]
        exact dropWhile_len_le isDig i
      · exact absurd h (by simp)

theorem takeUntilNl_le : ∀ (i rest : List Char) (w : List Char),
    takeUntilNl i = .ok (rest, w) → rest.length ≤ i.length := by
  intro i rest w h
  unfold takeUntilNl at h
  split at h
  · simp only [Except.ok.injEq, Prod.mk.injEq] at h
    obtain ⟨h1, _⟩ := h
    rw [← h1]
    exact dropWhile_len_le _ i
  · exact absurd h (by simp)

theorem parse_escape_le : ∀ (i rest : List Char) (v : Nat), parse_escape i = .ok (rest, v) →
    rest.length ≤ i.length := by
  intro i rest v h
  unfold parse_escape at h
  cases h1 : tagStr ('\'' :: '\\' :: []) i with
  | error e => simp [h1] at h
  | ok r1 =>
    obtain ⟨i1, u⟩ := r1
    simp only [h1] at h
    cases h2 : anyChar i1 with
    | error e => simp [h2] at h
    | ok r2 =>
      obtain ⟨i2, c⟩ := r2
      simp only [h2] at h
      cases h3 : tagChar '\'' i2 with
      | error e => simp [h3] at h
      | ok r3 =>
        obtain ⟨i3, c3⟩ := r3
        simp only [h3] at h
        split at h
        · simp only [Except.ok.injEq, Prod.mk.injEq] at h
          obtain ⟨hr, _⟩ := h
          rw [← hr]
          exact le_trans (le_of_lt (tagChar_lt h3))
            (le_trans (le_of_lt (anyChar_lt h2)) (tagStr_le _ i i1 u h1))
        · exact absurd h (by simp)

theorem parse_u32_param_le : ∀ (i rest : List Char) (v : Nat),
    parse_u32_param i = .ok (rest, v) → rest.length ≤ i.length := by
  unfold parse_u32_param
  exact alt2_le
    (pmap_le (delim_le (fun i r a h => le_of_lt (tagChar_lt h))
      (fun i r a h => le_of_lt (anyChar_lt h)) (fun i r a h => le_of_lt (tagChar_lt h))))
    (alt2_le dec_uint_le parse_escape_le)

theorem parse_word_lt : ∀ (i rest : List Char) (w : List Char),
    parse_word i = .ok (rest, w) → rest.length < i.length := by
  intro i rest w h
  unfold parse_word delim at h
  cases h1 : multispace0 i with
  | error e => simp [h1] at h
  | ok r1 =>
    obtain ⟨i1, w1⟩ := r1
    simp only [h1] at h
    cases h2 : alt2 alpha1 (pmap (tagChar ';') (fun _ => ';' :: [])) i1 with
    | error e => simp [h2] at h
    | ok r2 =>
      obtain ⟨i2, w2⟩ := r2
      simp only [h2] at h
      cases h3 : multispace0 i2 with
      | error e => simp [h3] at h
      | ok r3 =>
        obtain ⟨i3, w3⟩ := r3
        simp only [h3] at h
        simp only [Except.ok.injEq, Prod.mk.injEq] at h
        obtain ⟨hr, _⟩ := h
        rw [← hr]
        have hmid : i2.length < i1.length := by
          unfold alt2 at h2
          cases ha : alpha1 i1 with
          | error e =>
            simp only [ha] at h2
            cases e with
            | backtrack =>
              cases hb : pmap (tagChar ';') (fun _ => ';' :: []) i1 with
              | error e2 => simp [hb] at h2
              | ok rb =>
                obtain ⟨ib, wb⟩ := rb
                simp only [hb] at h2
                cases h2
                unfold pmap at hb
                cases hc : tagChar ';' i1 with
                | error e3 => simp [hc] at hb
                | ok rc =>
                  obtain ⟨ic, cc⟩ := rc
                  rw [hc] at hb
                  simp only [Except.ok.injEq, Prod.mk.injEq] at hb
                  obtain ⟨hbi, _⟩ := hb
                  rw [← hbi]
                  exact tagChar_lt hc
            | cut => exact absurd h2 (by simp)
          | ok ra =>
            simp only [ha] at h2
            cases h2
            exact alpha1_lt ha
        calc i3.length ≤ i2.length := multispace0_le h3
          _ < i1.length := hmid
          _ ≤ i.length := multispace0_le h1

theorem parse_instruction_lt : ∀ (i rest : List Char) (x : Option Instruction),
    parse_instruction i = .ok (rest, x) → rest.length < i.length := by
  intro i rest x h
  unfold parse_instruction at h
  cases hpw : parse_word i with
  | error e => simp [hpw] at h
  | ok r1 =>
    obtain ⟨i1, w⟩ := r1
    simp only [hpw] at h
    have hi1 : i1.length < i.length := parse_word_lt i i1 w hpw
    split_ifs at h
    · cases h; exact hi1
    · cases h; exact hi1
    · cases hp : parse_u32_param i1 with
      | error e => simp [hp] at h
      | ok r2 =>
        obtain ⟨i2, n⟩ := r2
        simp only [hp] at h
        cases h
        exact lt_of_le_of_lt (parse_u32_param_le i1 rest n hp) hi1
    · cases hp : parse_i32_param i1 with
      | error e => simp [hp] at h
      | ok r2 =>
        obtain ⟨i2, n⟩ := r2
        simp only [hp] at h
        cases h
        exact lt_of_le_of_lt (dec_int_le i1 rest n hp) hi1
    · cases hp : parse_i32_param i1 with
      | error e => simp [hp] at h
      | ok r2 =>
        obtain ⟨i2, n⟩ := r2
        simp only [hp] at h
        cases h
        exact lt_of_le_of_lt (dec_int_le i1 rest n hp) hi1
    · cases hp : parse_i32_param i1 with
      | error e => simp [hp] at h
      | ok r2 =>
        obtain ⟨i2, n1⟩ := r2
        simp only [hp] at h
        cases hq : delim multispace0 (tagChar ',') multispace0 i2 with
        | error e => simp [hq] at h
        | ok r3 =>
          obtain ⟨i3, u⟩ := r3
          simp only [hq] at h
          cases hr : parse_i32_param i3 with
          | error e => simp [hr] at h
          | ok r4 =>
            obtain ⟨i4, n2⟩ := r4
            simp only [hr] at h
            cases h
            have hq_le : i3.length ≤ i2.length :=
              delim_le (fun a b c hh => multispace0_le hh)
                (fun a b c hh => le_of_lt (tagChar_lt hh))
                (fun a b c hh => multispace0_le hh) i2 i3 u hq
            exact lt_of_le_of_lt
              (le_trans (dec_int_le i3 rest n2 hr) (le_trans hq_le (dec_int_le i1 i2 n1 hp))) hi1
    · cases hp : takeUntilNl i1 with
      | error e => simp [hp] at h
      | ok r2 =>
        obtain ⟨i2, w2⟩ := r2
        simp only [hp] at h
        cases h
        exact lt_of_le_of_lt (takeUntilNl_le i1 rest w2 hp) hi1


/-! ## Fuel irrelevance and whitespace congruence for the assembler loop -/

theorem foldGo_irrel : ∀ (f f2 : Nat) (acc : List Instruction) (i : List Char),
    i.length < f → i.length < f2 → foldGo f acc i = foldGo f2 acc i := by
  intro f
  induction f with
  | zero => intro f2 acc i h1 h2; exact absurd h1 (Nat.not_lt_zero _)
  | succ f ih =>
    intro f2 acc i h1 h2
    cases f2 with
    | zero => exact absurd h2 (Nat.not_lt_zero _)
    | succ f2 =>
      simp only [foldGo]
      cases hpi : parse_instruction i with
      | error e => cases e <;> simp [hpi]
      | ok ri =>
        obtain ⟨rest, item⟩ := ri
        have hlt := parse_instruction_lt i rest item hpi
        simp only [hpi]
        rw [if_pos hlt, if_pos hlt]
        exact ih f2 _ rest (by omega) (by omega)

theorem parse_word_ws {c : Char} (hc : isWs c = true) (s : List Char) :
    parse_word (c :: s) = parse_word s := by
  unfold parse_word delim multispace0
  simp [List.dropWhile_cons, hc]

theorem parse_instruction_ws {c : Char} (hc : isWs c = true) (s : List Char) :
    parse_instruction (c :: s) = parse_instruction s := by
  unfold parse_instruction
  rw [parse_word_ws hc]

theorem foldGo_ws {c : Char} (hc : isWs c = true) :
    ∀ (f g : Nat) (acc : List Instruction) (s : List Char),
    s.length + 1 < f → s.length < g →
    stripRest (foldGo f acc (c :: s)) = stripRest (foldGo g acc s) := by
  intro f g acc s hf hg
  cases f with
  | zero => exact absurd hf (by omega)
  | succ f =>
    cases g with
    | zero => exact absurd hg (Nat.not_lt_zero _)
    | succ g =>
      simp only [foldGo]
      rw [parse_instruction_ws hc]
      cases hpi : parse_instruction s with
      | error e => cases e <;> simp [hpi, stripRest]
      | ok ri =>
        obtain ⟨rest, item⟩ := ri
        have hlt := parse_instruction_lt s rest item hpi
        simp only [hpi]
        rw [if_pos (by simp only [List.length_cons]; omega), if_pos hlt]
        rw [foldGo_irrel f g _ rest (by omega) (by omega)]

/-! ## The comment arm of the grammar -/

theorem dropWhile_ne_nil_of_exists {q : Char → Bool} : ∀ {t : List Char},
    (∃ c ∈ t, q c = false) → t.dropWhile q ≠ [] := by
  intro t
  induction t with
  | nil => rintro ⟨c, hc, _⟩; cases hc
  | cons a l ih =>
    rintro ⟨c, hc, hq⟩
    rw [List.dropWhile_cons]
    split
    · rename_i hqa
      apply ih
      refine ⟨c, ?_, hq⟩
      rcases List.mem_cons.mp hc with hca | hmem
      · rw [hca] at hq
        rw [hq] at hqa
        cases hqa
      · exact hmem
    · simp

theorem dropWhile_append_left {q : Char → Bool} : ∀ (l r : List Char), l.dropWhile q ≠ [] →
    (l ++ r).dropWhile q = l.dropWhile q ++ r := by
  intro l
  induction l with
  | nil => intro r h; exact absurd rfl h
  | cons a l ih =>
    intro r h
    rw [List.cons_append, List.dropWhile_cons, List.dropWhile_cons]
    rw [List.dropWhile_cons] at h
    by_cases hqa : q a = true
    · rw [if_pos hqa, if_pos hqa]
      exact ih r (by rwa [if_pos hqa] at h)
    · rw [if_neg hqa, if_neg hqa, List.cons_append]

theorem mem_of_mem_dropWhile {q : Char → Bool} : ∀ {l : List Char} {c : Char},
    c ∈ l.dropWhile q → c ∈ l := by
  intro l
  induction l with
  | nil => intro c h; exact absurd h (by simp)
  | cons a l ih =>
    intro c h
    rw [List.dropWhile_cons] at h
    split at h
    · exact List.mem_cons_of_mem a (ih h)
    · exact h

theorem dropWhile_neq_nl : ∀ (t s : List Char), '\n' ∉ t →
    (t ++ '\n' :: s).dropWhile (fun c => c != '\n') = '\n' :: s := by
  intro t
  induction t with
  | nil =>
    intro s h
    rw [List.nil_append, List.dropWhile_cons]
    simp
  | cons a t ih =>
    intro s h
    rw [List.cons_append, List.dropWhile_cons]
    have ha : a ≠ '\n' := fun hh => h (hh ▸ List.mem_cons_self a t)
    rw [if_pos (by simp [ha])]
    exact ih s (fun hm => h (List.mem_cons_of_mem a hm))

theorem parse_instruction_comment {t : List Char} (hnl : '\n' ∉ t)
    (hnw : ∃ c ∈ t, isWs c = false) (s : List Char) :
    parse_instruction (';' :: (t ++ '\n' :: s)) = .ok ('\n' :: s, none) := by
  have hpw : parse_word (';' :: (t ++ '\n' :: s))
      = .ok ((t ++ '\n' :: s).dropWhile isWs, ';' :: []) := rfl
  have hne : t.dropWhile isWs ≠ [] := dropWhile_ne_nil_of_exists hnw
  have hdw : (t ++ '\n' :: s).dropWhile isWs = t.dropWhile isWs ++ '\n' :: s :=
    dropWhile_append_left t ('\n' :: s) hne
  have hnl2 : '\n' ∉ t.dropWhile isWs := fun hm => hnl (mem_of_mem_dropWhile hm)
  unfold parse_instruction
  simp only [hpw]
  rw [if_neg (by decide), if_neg (by decide), if_neg (by decide), if_neg (by decide),
    if_neg (by decide), if_neg (by decide), if_pos trivial]
  rw [hdw]
  have htu : takeUntilNl (t.dropWhile isWs ++ '\n' :: s)
      = .ok ('\n' :: s,
          (t.dropWhile isWs ++ '\n' :: s).takeWhile (fun c => c != '\n')) := by
    unfold takeUntilNl
    rw [if_pos (by simp)]
    rw [dropWhile_neq_nl _ s hnl2]
  simp only [htu]


theorem parse_eq_strip (s : List Char) : parse s = stripRest (foldGo (s.length + 1) [] s) := by
  unfold parse stripRest
  cases foldGo (s.length + 1) [] s with
  | error e => rfl
  | ok ra =>
    obtain ⟨r, a⟩ := ra
    rfl

theorem parse_u32_param_escape_cut (c : Char) (rest : List Char) (h1 : ¬ c = 'n')
    (h2 : ¬ c = '\'') :
    parse_u32_param ('\'' :: '\\' :: c :: '\'' :: rest) = .error .cut := by
  have hA : pmap (delim (tagChar '\'') anyChar (tagChar '\'')) Char.toNat
      ('\'' :: '\\' :: c :: '\'' :: rest) = .error .backtrack := by
    simp [pmap, delim, tagChar, anyChar, h2]
  have hB : dec_uint ('\'' :: '\\' :: c :: '\'' :: rest) = .error .backtrack := rfl
  have hC : parse_escape ('\'' :: '\\' :: c :: '\'' :: rest) = .error .cut := by
    unfold parse_escape
    have ht : tagStr ('\'' :: '\\' :: []) ('\'' :: '\\' :: c :: '\'' :: rest)
        = .ok (c :: '\'' :: rest, ()) := rfl
    simp only [ht, anyChar, tagChar, if_pos]
    rw [if_neg h1]
  simp only [parse_u32_param, alt2, hA, hB, hC]

/-- C9 (amended): parsing a WRITE escape literal yields 10 exactly for the
escape character n; every other escape character except the quote character
itself is a hard cut that aborts the whole parse; the quote character instead
makes the earlier plain-character-literal alternative fire (see the
counterexample). -/
theorem escape_correct :
    (∀ rest : List Char, parse_u32_param ('\'' :: '\\' :: 'n' :: '\'' :: rest)
        = .ok (rest, 10)) ∧
    (∀ (c : Char) (rest : List Char), ¬ c = 'n' → ¬ c = '\'' →
      parse_u32_param ('\'' :: '\\' :: c :: '\'' :: rest) = .error .cut) ∧
    (∀ (c : Char) (s : List Char), ¬ c = 'n' → ¬ c = '\'' →
      parse (("WRITE '\\".toList) ++ c :: '\'' :: s) = .error .cut) := by
  refine ⟨fun rest => rfl, parse_u32_param_escape_cut, ?_⟩
  intro c s h1 h2
  have hpw : parse_word (("WRITE '\\".toList) ++ c :: '\'' :: s)
      = .ok ('\'' :: '\\' :: c :: '\'' :: s, "WRITE".toList) := rfl
  have hpi : parse_instruction (("WRITE '\\".toList) ++ c :: '\'' :: s) = .error .cut := by
    unfold parse_instruction
    simp only [hpw]
    rw [if_neg (by decide), if_neg (by decide), if_pos (by decide)]
    simp only [parse_u32_param_escape_cut c s h1 h2]
  rw [parse_eq_strip]
  simp only [foldGo, hpi]
  rfl

theorem escape_correct_witness :
    (¬ 'x' = 'n' ∧ ¬ 'x' = '\'') ∧
    parse_u32_param ('\'' :: '\\' :: 'x' :: '\'' :: []) = .error .cut ∧
    parse (("WRITE '\\".toList) ++ 'x' :: '\'' :: []) = .error .cut :=
  ⟨⟨by decide, by decide⟩, escape_correct.2.1 'x' [] (by decide) (by decide),
    escape_correct.2.2 'x' [] (by decide) (by decide)⟩

/-- C9 counterexample: for the escape character ' (the input WRITE '\''),
parsing does not hard-fail: the earlier plain-character alternative consumes
the three characters quote backslash quote as the literal backslash (code
92) and the whole parse succeeds. -/
theorem escape_claim_cex :
    parse ("WRITE '\\''".toList) = .ok (Instruction.write 92 :: []) ∧
    (Except.ok (Instruction.write 92 :: []) : Except PErr (List Instruction))
      ≠ .error .cut := ⟨rfl, by simp⟩

/-- C4 (amended): a comment whose text contains at least one non-whitespace
character before the newline consumes exactly the remainder of the line up to
but not including the newline, yields no instruction, and the program parses
identically to the program with the comment line removed. When the comment
text is all whitespace, parse_word's trailing whitespace consumption crosses
the newline and the comment eats the following line (see the counterexample). -/
theorem comment_correct (t s : List Char) (hnl : '\n' ∉ t)
    (hnw : ∃ c ∈ t, isWs c = false) :
    parse_instruction (';' :: (t ++ '\n' :: s)) = .ok ('\n' :: s, none) ∧
    parse (';' :: (t ++ '\n' :: s)) = parse s := by
  refine ⟨parse_instruction_comment hnl hnw s, ?_⟩
  have hlen1 : ('\n' :: s).length < (';' :: (t ++ '\n' :: s)).length := by
    simp only [List.length_cons, List.length_append]
    omega
  have e0 := parse_eq_strip (';' :: (t ++ '\n' :: s))
  have hstep : foldGo ((';' :: (t ++ '\n' :: s)).length + 1) [] (';' :: (t ++ '\n' :: s))
      = foldGo ((';' :: (t ++ '\n' :: s)).length) [] ('\n' :: s) := by
    simp only [foldGo, parse_instruction_comment hnl hnw s]
    rw [if_pos hlen1]
  have e1 := parse_eq_strip s
  rw [e0, hstep, e1]
  exact foldGo_ws (show isWs '\n' = true by decide) _ _ [] s
    (by simp only [List.length_cons, List.length_append]; omega) (by omega)

theorem comment_correct_witness :
    ('\n' ∉ ('x' :: [] : List Char) ∧ ∃ c ∈ ('x' :: [] : List Char), isWs c = false) ∧
    (parse_instruction (';' :: (('x' :: []) ++ '\n' :: 'P' :: []))
        = .ok ('\n' :: 'P' :: [], none) ∧
      parse (';' :: (('x' :: []) ++ '\n' :: 'P' :: [])) = parse ('P' :: [])) :=
  ⟨⟨by decide, ⟨'x', by simp, by decide⟩⟩,
    comment_correct ('x' :: []) ('P' :: []) (by decide) ⟨'x', by simp, by decide⟩⟩

/-- C4 counterexample: for the comment line with empty text, parse_word's
trailing whitespace step consumes the newline itself and the comment then
swallows the PRINT on the following line, so the program does not compile
identically to the program with the comment line removed. -/
theorem comment_claim_cex :
    parse (";\nPRINT\n".toList) = .ok [] ∧
    parse ("PRINT\n".toList) = .ok (Instruction.print :: []) ∧
    (Except.ok ([] : List Instruction) : Except PErr (List Instruction))
      ≠ .ok (Instruction.print :: []) := ⟨rfl, rfl, by simp⟩


/-- C3 (amended): for i32 offsets to and tmp that are nonzero, distinct, with
to, tmp and tmp - to all strictly between -2^31 and 2^31 (so no wrapping
occurs in the emitted pointer arithmetic), the CopyValue fragment preserves
the current register, copies its value to the destination, zeroes the
scratch, restores the pointer, and touches no other cell. Outside that range
the i32 wrapping in write_instruction breaks the fragment (see the
counterexample). -/
theorem copyValue_correct (a b : Int) (t : Int → Nat) (p : Int)
    (ha0 : a ≠ 0) (hb0 : b ≠ 0) (hab : a ≠ b)
    (halo : -2147483648 < a) (hahi : a < 2147483648)
    (hblo : -2147483648 < b) (hbhi : b < 2147483648)
    (hdlo : -2147483648 < b - a) (hdhi : b - a < 2147483648) :
    ∃ s' : BfState, parseBF (write_instruction (.copyValue a b)) = some (cpAST a b) ∧
      Runs (cpAST a b) ⟨t, p⟩ s' ∧ s'.ptr = p ∧ s'.tape p = t p ∧ s'.tape (p + a) = t p ∧
      s'.tape (p + b) = 0 ∧ ∀ q, q ≠ p → q ≠ p + a → q ≠ p + b → s'.tape q = t q := by
  have hpa : p + a ≠ p := by omega
  have hpb : p + b ≠ p := by omega
  have hba : p + b ≠ p + a := by omega
  have hsplit : cpAST a b = astShift a ++ ((.loop (.dec :: []) :: []) ++ (astShift (b - a)
      ++ ((.loop (.dec :: []) :: []) ++ (astShift (-b)
      ++ ((.loop (.dec :: (astShift a ++ (.inc ::
            (astShift (b - a) ++ (.inc :: astShift (-b)))))) :: [])
      ++ (astShift b
      ++ ((.loop (.dec :: (astShift (-b) ++ (.inc :: astShift b))) :: [])
      ++ astShift (-b)))))))) := by
    simp [cpAST]
  have h1 : Runs (astShift a) ⟨t, p⟩ ⟨t, p + a⟩ := runs_astShift a t p
  have h2 : Runs (.loop (.dec :: []) :: []) ⟨t, p + a⟩ ⟨updTape t (p + a) 0, p + a⟩ := runs_clear t (p + a)
  have h3 : Runs (astShift (b - a)) ⟨updTape t (p + a) 0, p + a⟩ ⟨updTape t (p + a) 0, p + b⟩ := by
    have h := runs_astShift (b - a) (updTape t (p + a) 0) (p + a)
    have e : p + a + (b - a) = p + b := by ring
    rwa [e] at h
  have h4 : Runs (.loop (.dec :: []) :: []) ⟨updTape t (p + a) 0, p + b⟩ ⟨updTape (updTape t (p + a) 0) (p + b) 0, p + b⟩ :=
    runs_clear (updTape t (p + a) 0) (p + b)
  have h5 : Runs (astShift (-b)) ⟨updTape (updTape t (p + a) 0) (p + b) 0, p + b⟩ ⟨updTape (updTape t (p + a) 0) (p + b) 0, p⟩ := by
    have h := runs_astShift (-b) (updTape (updTape t (p + a) 0) (p + b) 0) (p + b)
    have e : p + b + -b = p := by ring
    rwa [e] at h
  have h6 : Runs (.loop (.dec :: (astShift a ++ (.inc ::
        (astShift (b - a) ++ (.inc :: astShift (-b)))))) :: []) ⟨updTape (updTape t (p + a) 0) (p + b) 0, p⟩
      ⟨updTape (updTape (updTape (updTape (updTape t (p + a) 0) (p + b) 0) p 0) (p + a) ((updTape (updTape t (p + a) 0) (p + b) 0) (p + a) + (updTape (updTape t (p + a) 0) (p + b) 0) p)) (p + b) ((updTape (updTape t (p + a) 0) (p + b) 0) (p + b) + (updTape (updTape t (p + a) 0) (p + b) 0) p), p⟩ :=
    runs_dualDrain a b ha0 hb0 hab ((updTape (updTape t (p + a) 0) (p + b) 0) p) (updTape (updTape t (p + a) 0) (p + b) 0) p rfl
  have h7 : Runs (astShift b) ⟨updTape (updTape (updTape (updTape (updTape t (p + a) 0) (p + b) 0) p 0) (p + a) ((updTape (updTape t (p + a) 0) (p + b) 0) (p + a) + (updTape (updTape t (p + a) 0) (p + b) 0) p)) (p + b) ((updTape (updTape t (p + a) 0) (p + b) 0) (p + b) + (updTape (updTape t (p + a) 0) (p + b) 0) p), p⟩ ⟨updTape (updTape (updTape (updTape (updTape t (p + a) 0) (p + b) 0) p 0) (p + a) ((updTape (updTape t (p + a) 0) (p + b) 0) (p + a) + (updTape (updTape t (p + a) 0) (p + b) 0) p)) (p + b) ((updTape (updTape t (p + a) 0) (p + b) 0) (p + b) + (updTape (updTape t (p + a) 0) (p + b) 0) p), p + b⟩ := runs_astShift b (updTape (updTape (updTape (updTape (updTape t (p + a) 0) (p + b) 0) p 0) (p + a) ((updTape (updTape t (p + a) 0) (p + b) 0) (p + a) + (updTape (updTape t (p + a) 0) (p + b) 0) p)) (p + b) ((updTape (updTape t (p + a) 0) (p + b) 0) (p + b) + (updTape (updTape t (p + a) 0) (p + b) 0) p)) p
  have h8 : Runs (.loop (.dec :: (astShift (-b) ++ (.inc :: astShift b))) :: [])
      ⟨updTape (updTape (updTape (updTape (updTape t (p + a) 0) (p + b) 0) p 0) (p + a) ((updTape (updTape t (p + a) 0) (p + b) 0) (p + a) + (updTape (updTape t (p + a) 0) (p + b) 0) p)) (p + b) ((updTape (updTape t (p + a) 0) (p + b) 0) (p + b) + (updTape (updTape t (p + a) 0) (p + b) 0) p), p + b⟩ ⟨updTape (updTape (updTape (updTape (updTape (updTape (updTape t (p + a) 0) (p + b) 0) p 0) (p + a) ((updTape (updTape t (p + a) 0) (p + b) 0) (p + a) + (updTape (updTape t (p + a) 0) (p + b) 0) p)) (p + b) ((updTape (updTape t (p + a) 0) (p + b) 0) (p + b) + (updTape (updTape t (p + a) 0) (p + b) 0) p)) (p + b) 0) p ((updTape (updTape (updTape (updTape (updTape t (p + a) 0) (p + b) 0) p 0) (p + a) ((updTape (updTape t (p + a) 0) (p + b) 0) (p + a) + (updTape (updTape t (p + a) 0) (p + b) 0) p)) (p + b) ((updTape (updTape t (p + a) 0) (p + b) 0) (p + b) + (updTape (updTape t (p + a) 0) (p + b) 0) p)) p + (updTape (updTape (updTape (updTape (updTape t (p + a) 0) (p + b) 0) p 0) (p + a) ((updTape (updTape t (p + a) 0) (p + b) 0) (p + a) + (updTape (updTape t (p + a) 0) (p + b) 0) p)) (p + b) ((updTape (updTape t (p + a) 0) (p + b) 0) (p + b) + (updTape (updTape t (p + a) 0) (p + b) 0) p)) (p + b)), p + b⟩ := by
    have h := runs_drain (-b) (by omega) ((updTape (updTape (updTape (updTape (updTape t (p + a) 0) (p + b) 0) p 0) (p + a) ((updTape (updTape t (p + a) 0) (p + b) 0) (p + a) + (updTape (updTape t (p + a) 0) (p + b) 0) p)) (p + b) ((updTape (updTape t (p + a) 0) (p + b) 0) (p + b) + (updTape (updTape t (p + a) 0) (p + b) 0) p)) (p + b)) (updTape (updTape (updTape (updTape (updTape t (p + a) 0) (p + b) 0) p 0) (p + a) ((updTape (updTape t (p + a) 0) (p + b) 0) (p + a) + (updTape (updTape t (p + a) 0) (p + b) 0) p)) (p + b) ((updTape (updTape t (p + a) 0) (p + b) 0) (p + b) + (updTape (updTape t (p + a) 0) (p + b) 0) p)) (p + b) rfl
    rw [neg_neg] at h
    have e : p + b + -b = p := by ring
    rw [e] at h
    exact h
  have h9 : Runs (astShift (-b)) ⟨updTape (updTape (updTape (updTape (updTape (updTape (updTape t (p + a) 0) (p + b) 0) p 0) (p + a) ((updTape (updTape t (p + a) 0) (p + b) 0) (p + a) + (updTape (updTape t (p + a) 0) (p + b) 0) p)) (p + b) ((updTape (updTape t (p + a) 0) (p + b) 0) (p + b) + (updTape (updTape t (p + a) 0) (p + b) 0) p)) (p + b) 0) p ((updTape (updTape (updTape (updTape (updTape t (p + a) 0) (p + b) 0) p 0) (p + a) ((updTape (updTape t (p + a) 0) (p + b) 0) (p + a) + (updTape (updTape t (p + a) 0) (p + b) 0) p)) (p + b) ((updTape (updTape t (p + a) 0) (p + b) 0) (p + b) + (updTape (updTape t (p + a) 0) (p + b) 0) p)) p + (updTape (updTape (updTape (updTape (updTape t (p + a) 0) (p + b) 0) p 0) (p + a) ((updTape (updTape t (p + a) 0) (p + b) 0) (p + a) + (updTape (updTape t (p + a) 0) (p + b) 0) p)) (p + b) ((updTape (updTape t (p + a) 0) (p + b) 0) (p + b) + (updTape (updTape t (p + a) 0) (p + b) 0) p)) (p + b)), p + b⟩ ⟨updTape (updTape (updTape (updTape (updTape (updTape (updTape t (p + a) 0) (p + b) 0) p 0) (p + a) ((updTape (updTape t (p + a) 0) (p + b) 0) (p + a) + (updTape (updTape t (p + a) 0) (p + b) 0) p)) (p + b) ((updTape (updTape t (p + a) 0) (p + b) 0) (p + b) + (updTape (updTape t (p + a) 0) (p + b) 0) p)) (p + b) 0) p ((updTape (updTape (updTape (updTape (updTape t (p + a) 0) (p + b) 0) p 0) (p + a) ((updTape (updTape t (p + a) 0) (p + b) 0) (p + a) + (updTape (updTape t (p + a) 0) (p + b) 0) p)) (p + b) ((updTape (updTape t (p + a) 0) (p + b) 0) (p + b) + (updTape (updTape t (p + a) 0) (p + b) 0) p)) p + (updTape (updTape (updTape (updTape (updTape t (p + a) 0) (p + b) 0) p 0) (p + a) ((updTape (updTape t (p + a) 0) (p + b) 0) (p + a) + (updTape (updTape t (p + a) 0) (p + b) 0) p)) (p + b) ((updTape (updTape t (p + a) 0) (p + b) 0) (p + b) + (updTape (updTape t (p + a) 0) (p + b) 0) p)) (p + b)), p⟩ := by
    have h := runs_astShift (-b) (updTape (updTape (updTape (updTape (updTape (updTape (updTape t (p + a) 0) (p + b) 0) p 0) (p + a) ((updTape (updTape t (p + a) 0) (p + b) 0) (p + a) + (updTape (updTape t (p + a) 0) (p + b) 0) p)) (p + b) ((updTape (updTape t (p + a) 0) (p + b) 0) (p + b) + (updTape (updTape t (p + a) 0) (p + b) 0) p)) (p + b) 0) p ((updTape (updTape (updTape (updTape (updTape t (p + a) 0) (p + b) 0) p 0) (p + a) ((updTape (updTape t (p + a) 0) (p + b) 0) (p + a) + (updTape (updTape t (p + a) 0) (p + b) 0) p)) (p + b) ((updTape (updTape t (p + a) 0) (p + b) 0) (p + b) + (updTape (updTape t (p + a) 0) (p + b) 0) p)) p + (updTape (updTape (updTape (updTape (updTape t (p + a) 0) (p + b) 0) p 0) (p + a) ((updTape (updTape t (p + a) 0) (p + b) 0) (p + a) + (updTape (updTape t (p + a) 0) (p + b) 0) p)) (p + b) ((updTape (updTape t (p + a) 0) (p + b) 0) (p + b) + (updTape (updTape t (p + a) 0) (p + b) 0) p)) (p + b))) (p + b)
    have e : p + b + -b = p := by ring
    rwa [e] at h
  have hrun : Runs (cpAST a b) ⟨t, p⟩ ⟨updTape (updTape (updTape (updTape (updTape (updTape (updTape t (p + a) 0) (p + b) 0) p 0) (p + a) ((updTape (updTape t (p + a) 0) (p + b) 0) (p + a) + (updTape (updTape t (p + a) 0) (p + b) 0) p)) (p + b) ((updTape (updTape t (p + a) 0) (p + b) 0) (p + b) + (updTape (updTape t (p + a) 0) (p + b) 0) p)) (p + b) 0) p ((updTape (updTape (updTape (updTape (updTape t (p + a) 0) (p + b) 0) p 0) (p + a) ((updTape (updTape t (p + a) 0) (p + b) 0) (p + a) + (updTape (updTape t (p + a) 0) (p + b) 0) p)) (p + b) ((updTape (updTape t (p + a) 0) (p + b) 0) (p + b) + (updTape (updTape t (p + a) 0) (p + b) 0) p)) p + (updTape (updTape (updTape (updTape (updTape t (p + a) 0) (p + b) 0) p 0) (p + a) ((updTape (updTape t (p + a) 0) (p + b) 0) (p + a) + (updTape (updTape t (p + a) 0) (p + b) 0) p)) (p + b) ((updTape (updTape t (p + a) 0) (p + b) 0) (p + b) + (updTape (updTape t (p + a) 0) (p + b) 0) p)) (p + b)), p⟩ := by
    rw [hsplit]
    exact runs_append h1 (runs_append h2 (runs_append h3 (runs_append h4 (runs_append h5
      (runs_append h6 (runs_append h7 (runs_append h8 h9)))))))
  refine ⟨⟨updTape (updTape (updTape (updTape (updTape (updTape (updTape t (p + a) 0) (p + b) 0) p 0) (p + a) ((updTape (updTape t (p + a) 0) (p + b) 0) (p + a) + (updTape (updTape t (p + a) 0) (p + b) 0) p)) (p + b) ((updTape (updTape t (p + a) 0) (p + b) 0) (p + b) + (updTape (updTape t (p + a) 0) (p + b) 0) p)) (p + b) 0) p ((updTape (updTape (updTape (updTape (updTape t (p + a) 0) (p + b) 0) p 0) (p + a) ((updTape (updTape t (p + a) 0) (p + b) 0) (p + a) + (updTape (updTape t (p + a) 0) (p + b) 0) p)) (p + b) ((updTape (updTape t (p + a) 0) (p + b) 0) (p + b) + (updTape (updTape t (p + a) 0) (p + b) 0) p)) p + (updTape (updTape (updTape (updTape (updTape t (p + a) 0) (p + b) 0) p 0) (p + a) ((updTape (updTape t (p + a) 0) (p + b) 0) (p + a) + (updTape (updTape t (p + a) 0) (p + b) 0) p)) (p + b) ((updTape (updTape t (p + a) 0) (p + b) 0) (p + b) + (updTape (updTape t (p + a) 0) (p + b) 0) p)) (p + b)), p⟩, parse_copy_frag halo hblo hbhi hdlo hdhi, hrun, rfl, ?_, ?_, ?_, ?_⟩
  · show (updTape (updTape (updTape (updTape (updTape (updTape (updTape t (p + a) 0) (p + b) 0) p 0) (p + a) ((updTape (updTape t (p + a) 0) (p + b) 0) (p + a) + (updTape (updTape t (p + a) 0) (p + b) 0) p)) (p + b) ((updTape (updTape t (p + a) 0) (p + b) 0) (p + b) + (updTape (updTape t (p + a) 0) (p + b) 0) p)) (p + b) 0) p ((updTape (updTape (updTape (updTape (updTape t (p + a) 0) (p + b) 0) p 0) (p + a) ((updTape (updTape t (p + a) 0) (p + b) 0) (p + a) + (updTape (updTape t (p + a) 0) (p + b) 0) p)) (p + b) ((updTape (updTape t (p + a) 0) (p + b) 0) (p + b) + (updTape (updTape t (p + a) 0) (p + b) 0) p)) p + (updTape (updTape (updTape (updTape (updTape t (p + a) 0) (p + b) 0) p 0) (p + a) ((updTape (updTape t (p + a) 0) (p + b) 0) (p + a) + (updTape (updTape t (p + a) 0) (p + b) 0) p)) (p + b) ((updTape (updTape t (p + a) 0) (p + b) 0) (p + b) + (updTape (updTape t (p + a) 0) (p + b) 0) p)) (p + b))) p = t p
    simp [updTape, hpa, hpb, hba, Ne.symm hpa, Ne.symm hpb, Ne.symm hba]
  · show (updTape (updTape (updTape (updTape (updTape (updTape (updTape t (p + a) 0) (p + b) 0) p 0) (p + a) ((updTape (updTape t (p + a) 0) (p + b) 0) (p + a) + (updTape (updTape t (p + a) 0) (p + b) 0) p)) (p + b) ((updTape (updTape t (p + a) 0) (p + b) 0) (p + b) + (updTape (updTape t (p + a) 0) (p + b) 0) p)) (p + b) 0) p ((updTape (updTape (updTape (updTape (updTape t (p + a) 0) (p + b) 0) p 0) (p + a) ((updTape (updTape t (p + a) 0) (p + b) 0) (p + a) + (updTape (updTape t (p + a) 0) (p + b) 0) p)) (p + b) ((updTape (updTape t (p + a) 0) (p + b) 0) (p + b) + (updTape (updTape t (p + a) 0) (p + b) 0) p)) p + (updTape (updTape (updTape (updTape (updTape t (p + a) 0) (p + b) 0) p 0) (p + a) ((updTape (updTape t (p + a) 0) (p + b) 0) (p + a) + (updTape (updTape t (p + a) 0) (p + b) 0) p)) (p + b) ((updTape (updTape t (p + a) 0) (p + b) 0) (p + b) + (updTape (updTape t (p + a) 0) (p + b) 0) p)) (p + b))) (p + a) = t p
    simp [updTape, hpa, hpb, hba, Ne.symm hpa, Ne.symm hpb, Ne.symm hba]
  · show (updTape (updTape (updTape (updTape (updTape (updTape (updTape t (p + a) 0) (p + b) 0) p 0) (p + a) ((updTape (updTape t (p + a) 0) (p + b) 0) (p + a) + (updTape (updTape t (p + a) 0) (p + b) 0) p)) (p + b) ((updTape (updTape t (p + a) 0) (p + b) 0) (p + b) + (updTape (updTape t (p + a) 0) (p + b) 0) p)) (p + b) 0) p ((updTape (updTape (updTape (updTape (updTape t (p + a) 0) (p + b) 0) p 0) (p + a) ((updTape (updTape t (p + a) 0) (p + b) 0) (p + a) + (updTape (updTape t (p + a) 0) (p + b) 0) p)) (p + b) ((updTape (updTape t (p + a) 0) (p + b) 0) (p + b) + (updTape (updTape t (p + a) 0) (p + b) 0) p)) p + (updTape (updTape (updTape (updTape (updTape t (p + a) 0) (p + b) 0) p 0) (p + a) ((updTape (updTape t (p + a) 0) (p + b) 0) (p + a) + (updTape (updTape t (p + a) 0) (p + b) 0) p)) (p + b) ((updTape (updTape t (p + a) 0) (p + b) 0) (p + b) + (updTape (updTape t (p + a) 0) (p + b) 0) p)) (p + b))) (p + b) = 0
    simp [updTape, hpa, hpb, hba, Ne.symm hpa, Ne.symm hpb, Ne.symm hba]
  · intro q hq hqa hqb
    show (updTape (updTape (updTape (updTape (updTape (updTape (updTape t (p + a) 0) (p + b) 0) p 0) (p + a) ((updTape (updTape t (p + a) 0) (p + b) 0) (p + a) + (updTape (updTape t (p + a) 0) (p + b) 0) p)) (p + b) ((updTape (updTape t (p + a) 0) (p + b) 0) (p + b) + (updTape (updTape t (p + a) 0) (p + b) 0) p)) (p + b) 0) p ((updTape (updTape (updTape (updTape (updTape t (p + a) 0) (p + b) 0) p 0) (p + a) ((updTape (updTape t (p + a) 0) (p + b) 0) (p + a) + (updTape (updTape t (p + a) 0) (p + b) 0) p)) (p + b) ((updTape (updTape t (p + a) 0) (p + b) 0) (p + b) + (updTape (updTape t (p + a) 0) (p + b) 0) p)) p + (updTape (updTape (updTape (updTape (updTape t (p + a) 0) (p + b) 0) p 0) (p + a) ((updTape (updTape t (p + a) 0) (p + b) 0) (p + a) + (updTape (updTape t (p + a) 0) (p + b) 0) p)) (p + b) ((updTape (updTape t (p + a) 0) (p + b) 0) (p + b) + (updTape (updTape t (p + a) 0) (p + b) 0) p)) (p + b))) q = t q
    simp [updTape, hq, hqa, hqb]


theorem copyValue_correct_witness :
    ((1 : Int) ≠ 0 ∧ (2 : Int) ≠ 0 ∧ (1 : Int) ≠ 2 ∧
      (-2147483648 : Int) < 1 ∧ (1 : Int) < 2147483648 ∧
      (-2147483648 : Int) < 2 ∧ (2 : Int) < 2147483648 ∧
      (-2147483648 : Int) < 2 - 1 ∧ (2 : Int) - 1 < 2147483648) ∧
    (∃ s' : BfState, parseBF (write_instruction (.copyValue 1 2)) = some (cpAST 1 2) ∧
      Runs (cpAST 1 2) ⟨fun q => if q = 0 then 3 else 7, 0⟩ s' ∧ s'.ptr = 0 ∧
      s'.tape 0 = (fun q : Int => if q = 0 then 3 else 7) 0 ∧
      s'.tape (0 + 1) = (fun q : Int => if q = 0 then 3 else 7) 0 ∧
      s'.tape (0 + 2) = 0 ∧
      ∀ q, q ≠ 0 → q ≠ 0 + 1 → q ≠ 0 + 2 →
        s'.tape q = (fun q : Int => if q = 0 then 3 else 7) q) :=
  ⟨⟨by decide, by decide, by decide, by decide, by decide, by decide, by decide, by decide,
    by decide⟩,
    copyValue_correct 1 2 (fun q => if q = 0 then 3 else 7) 0 (by decide) (by decide)
      (by decide) (by decide) (by decide) (by decide) (by decide) (by decide) (by decide)⟩

/-- Helper facts for the CopyValue counterexample at to = -2^31, tmp = 1. -/
theorem cexE1 : write_move (-2147483648 : Int) = [] := rfl

theorem cexE2 : wrap32 (1 - -2147483648) = -2147483647 := by norm_num [wrap32]

theorem cexE3 : write_move (-2147483647 : Int) = shiftChars (-2147483647) :=
  write_move_chars (by decide)

theorem cexE4 : wrap32 (-(1 : Int)) = -1 := by norm_num [wrap32]

theorem cexE5 : write_move (-1 : Int) = '<' :: [] := rfl

theorem cexE6 : write_move (1 : Int) = '>' :: [] := rfl

theorem cexE7 : write_move_val_loop (i32abs (1 : Int)) (move_sign_of (-(1 : Int)))
    (move_sign_of (1 : Int)) = '[' :: '-' :: '<' :: '+' :: '>' :: ']' :: [] := rfl


theorem cexChars : write_instruction (.copyValue (-2147483648) 1) =
    '[' :: '-' :: ']' :: (shiftChars (-2147483647) ++ ('[' :: '-' :: ']' :: '<' ::
      '[' :: '-' :: '+' :: (shiftChars (-2147483647) ++ ('+' :: '<' :: ']' :: '>' ::
      '[' :: '-' :: '<' :: '+' :: '>' :: ']' :: '<' :: [])))) := by
  simp only [write_instruction]
  rw [cexE2, cexE4, cexE7, cexE1, cexE3, cexE5, cexE6]
  generalize shiftChars (-2147483647) = L
  have hg : ∀ L2 : List Char, [] ++ CLEAR_REG ++ L2 ++ CLEAR_REG ++ ((['<']) : List Char)
      ++ (['[', '-']) ++ [] ++ (['+']) ++ L2 ++ (['+']) ++ (['<']) ++ ([']']) ++ (['>'])
      ++ (['[', '-', '<', '+', '>', ']']) ++ (['<'])
      = '[' :: '-' :: ']' :: (L2 ++ '[' :: '-' :: ']' :: '<' :: '[' :: '-' :: '+' ::
        (L2 ++ (['+', '<', ']', '>', '[', '-', '<', '+', '>', ']', '<']))) := by
    intro L2
    simp [CLEAR_REG, List.append_assoc]
  exact hg L

theorem cexParse :
    parseBF ('[' :: '-' :: ']' :: (shiftChars (-2147483647) ++ ('[' :: '-' :: ']' :: '<' ::
      '[' :: '-' :: '+' :: (shiftChars (-2147483647) ++ ('+' :: '<' :: ']' :: '>' ::
      '[' :: '-' :: '<' :: '+' :: '>' :: ']' :: '<' :: [])))))
    = some (.loop (.dec :: []) :: (astShift (-2147483647) ++ (.loop (.dec :: []) :: .left ::
        .loop (.dec :: .inc :: (astShift (-2147483647) ++ (.inc :: .left :: []))) :: .right ::
        .loop (.dec :: .left :: .inc :: .right :: []) :: .left :: []))) := by
  show pb _ [] [] = _
  rw [pb_clear, pb_shiftChars, pb_clear, pb_lt, pb_open, pb_minus, pb_plus, pb_shiftChars,
    pb_plus, pb_lt, pb_close, pb_gt, pb_open, pb_minus, pb_lt, pb_plus, pb_gt, pb_close,
    pb_lt, pb_nil]
  have hg : ∀ M : List BF, M.reverse = M →
      (some ((BF.left :: BF.loop (([BF.right, BF.inc, BF.left, BF.dec]).reverse) :: BF.right ::
        BF.loop ((BF.left :: BF.inc :: (M ++ ([BF.inc, BF.dec]))).reverse) :: BF.left ::
        BF.loop ([BF.dec]) :: (M ++ ([BF.loop ([BF.dec])]))).reverse)
      = some (BF.loop ([BF.dec]) :: (M ++ ([BF.loop ([BF.dec]), BF.left,
          BF.loop (BF.dec :: BF.inc :: (M ++ ([BF.inc, BF.left]))), BF.right,
          BF.loop ([BF.dec, BF.left, BF.inc, BF.right]), BF.left])))) := by
    intro M hM
    simp [List.reverse_append, hM]
  exact hg _ (astShift_reverse _)

theorem cexRuns :
    Runs (.loop (.dec :: []) :: (astShift (-2147483647) ++ (.loop (.dec :: []) :: .left ::
          .loop (.dec :: .inc :: (astShift (-2147483647) ++ (.inc :: .left :: []))) :: .right ::
          .loop (.dec :: .left :: .inc :: .right :: []) :: .left :: [])))
        ⟨fun q => if q = 0 then 1 else 0, 0⟩
        ⟨updTape (updTape (fun q => if q = 0 then 1 else 0) 0 0) (-2147483647) 0,
          -2147483648⟩ := by
  have h1 : Runs (.loop (.dec :: []) :: []) ⟨fun q => if q = 0 then 1 else 0, 0⟩
      ⟨updTape (fun q => if q = 0 then 1 else 0) 0 0, 0⟩ :=
    runs_clear (fun q => if q = 0 then 1 else 0) 0
  have h2 : Runs (astShift (-2147483647)) ⟨updTape (fun q => if q = 0 then 1 else 0) 0 0, 0⟩
      ⟨updTape (fun q => if q = 0 then 1 else 0) 0 0, -2147483647⟩ := by
    have h := runs_astShift (-2147483647) (updTape (fun q => if q = 0 then 1 else 0) 0 0) 0
    have e : (0 : Int) + -2147483647 = -2147483647 := by ring
    rwa [e] at h
  have h3 : Runs (.loop (.dec :: []) :: [])
      ⟨updTape (fun q => if q = 0 then 1 else 0) 0 0, -2147483647⟩
      ⟨updTape (updTape (fun q => if q = 0 then 1 else 0) 0 0) (-2147483647) 0,
        -2147483647⟩ :=
    runs_clear (updTape (fun q => if q = 0 then 1 else 0) 0 0) (-2147483647)
  have h4 : Runs (.left :: [])
      ⟨updTape (updTape (fun q => if q = 0 then 1 else 0) 0 0) (-2147483647) 0,
        -2147483647⟩
      ⟨updTape (updTape (fun q => if q = 0 then 1 else 0) 0 0) (-2147483647) 0,
        -2147483648⟩ := by
    apply runs_cons_left
    have e : (-2147483647 : Int) - 1 = -2147483648 := by ring
    rw [e]
    exact runs_nil _
  have hz : (updTape (updTape (fun q => if q = 0 then 1 else 0) 0 0) (-2147483647) 0)
      (-2147483648) = 0 := by
    simp [updTape]
  have h5 : Runs (.loop (.dec :: .inc :: (astShift (-2147483647) ++ (.inc :: .left :: [])))
        :: [])
      ⟨updTape (updTape (fun q => if q = 0 then 1 else 0) 0 0) (-2147483647) 0,
        -2147483648⟩
      ⟨updTape (updTape (fun q => if q = 0 then 1 else 0) 0 0) (-2147483647) 0,
        -2147483648⟩ :=
    runs_loop_zero hz
  have h6 : Runs (.right :: [])
      ⟨updTape (updTape (fun q => if q = 0 then 1 else 0) 0 0) (-2147483647) 0,
        -2147483648⟩
      ⟨updTape (updTape (fun q => if q = 0 then 1 else 0) 0 0) (-2147483647) 0,
        -2147483647⟩ := by
    apply runs_cons_right
    have e : (-2147483648 : Int) + 1 = -2147483647 := by ring
    rw [e]
    exact runs_nil _
  have hz2 : (updTape (updTape (fun q => if q = 0 then 1 else 0) 0 0) (-2147483647) 0)
      (-2147483647) = 0 := by
    simp [updTape]
  have h7 : Runs (.loop (.dec :: .left :: .inc :: .right :: []) :: [])
      ⟨updTape (updTape (fun q => if q = 0 then 1 else 0) 0 0) (-2147483647) 0,
        -2147483647⟩
      ⟨updTape (updTape (fun q => if q = 0 then 1 else 0) 0 0) (-2147483647) 0,
        -2147483647⟩ :=
    runs_loop_zero hz2
  have h8 : Runs (.left :: [])
      ⟨updTape (updTape (fun q => if q = 0 then 1 else 0) 0 0) (-2147483647) 0,
        -2147483647⟩
      ⟨updTape (updTape (fun q => if q = 0 then 1 else 0) 0 0) (-2147483647) 0,
        -2147483648⟩ := by
    apply runs_cons_left
    have e : (-2147483647 : Int) - 1 = -2147483648 := by ring
    rw [e]
    exact runs_nil _
  have hprog : (BF.loop (.dec :: []) :: (astShift (-2147483647) ++ (.loop (.dec :: [])
        :: .left :: .loop (.dec :: .inc :: (astShift (-2147483647)
          ++ (.inc :: .left :: []))) :: .right ::
        .loop (.dec :: .left :: .inc :: .right :: []) :: .left :: [])))
      = (BF.loop (.dec :: []) :: []) ++ (astShift (-2147483647)
        ++ ((BF.loop (.dec :: []) :: []) ++ ((BF.left :: [])
        ++ ((BF.loop (.dec :: .inc :: (astShift (-2147483647) ++ (.inc :: .left :: []))) :: [])
        ++ ((BF.right :: []) ++ ((BF.loop (.dec :: .left :: .inc :: .right :: []) :: [])
        ++ (BF.left :: []))))))) := by
    simp
  rw [hprog]
  exact runs_append h1 (runs_append h2 (runs_append h3 (runs_append h4 (runs_append h5
    (runs_append h6 (runs_append h7 h8))))))

/-- C3 counterexample: the offsets to = -2^31 and tmp = 1 are nonzero and
distinct, yet the emitted fragment, run from a tape holding 1 in the current
register and 0 elsewhere, ends with the pointer at -2^31 (not back on the
current register) and with the current register zeroed (not preserved): the
wrapping i32 absolute value makes write_move(-2^31) emit nothing and the
wrapped difference tmp - to misplaces every subsequent move. -/
theorem copyValue_claim_cex :
    ((-2147483648 : Int) ≠ 0 ∧ (1 : Int) ≠ 0 ∧ (-2147483648 : Int) ≠ 1) ∧
    parseBF (write_instruction (.copyValue (-2147483648) 1))
      = some (.loop (.dec :: []) :: (astShift (-2147483647) ++ (.loop (.dec :: []) :: .left ::
          .loop (.dec :: .inc :: (astShift (-2147483647) ++ (.inc :: .left :: []))) :: .right ::
          .loop (.dec :: .left :: .inc :: .right :: []) :: .left :: []))) ∧
    Runs (.loop (.dec :: []) :: (astShift (-2147483647) ++ (.loop (.dec :: []) :: .left ::
          .loop (.dec :: .inc :: (astShift (-2147483647) ++ (.inc :: .left :: []))) :: .right ::
          .loop (.dec :: .left :: .inc :: .right :: []) :: .left :: [])))
        ⟨fun q => if q = 0 then 1 else 0, 0⟩
        ⟨updTape (updTape (fun q => if q = 0 then 1 else 0) 0 0) (-2147483647) 0,
          -2147483648⟩ ∧
    ((-2147483648 : Int) ≠ 0 ∧
      updTape (updTape (fun q => if q = 0 then 1 else 0) 0 0) (-2147483647) 0 0 = 0 ∧
      (fun q : Int => if q = 0 then 1 else 0) 0 = 1) := by
  refine ⟨⟨by decide, by decide, by decide⟩, ?_, cexRuns, by decide, ?_, by norm_num⟩
  · rw [cexChars]
    exact cexParse
  · simp [updTape]


end Basm
